import Mathlib

/-!
Verification of django_extensions/management/shells.py.

A shallow embedding of the shell_plus import machinery:

* `get_app_name` — derives an application display name from a model's
  module path (source lines 36-62);
* `import_items` — the import-directive interpreter (source lines 65-248);
* `perform_automatic_imports`, `get_dict_from_names_to_possible_models`,
  `build_load_models`, `import_objects` — model discovery, denylist
  filtering and phase orchestration (source lines 251-441).

Python strings are embedded as Lean `String`; all string operations used by
the source (`split`, `strip`, `startswith`, concatenation, ordering) are
re-implemented structurally over `String.data` so that every definition
evaluates by kernel reduction on concrete inputs.

External collaborators (the application registry, the mongoengine document
registry, the collision resolver, the subclass finder, Django settings and
the importable-module universe) are inputs of the embedding: a `Shell`
configuration record carries them, and a `World` describes which modules
exist and which attributes they export.
-/

set_option maxRecDepth 8000

/-! ## Structural string utilities (models of the Python str operations) -/

/-- Python whitespace test used by `str.strip()` (the characters relevant
to import directives). -/
def isPySpace (c : Char) : Bool :=
  c = ' ' || c = '\t' || c = '\n' || c = '\r' || c = '\x0c' || c = '\x0b'

/-- Python `str.strip()` on a character list. -/
def trimChars (cs : List Char) : List Char :=
  ((cs.dropWhile isPySpace).reverse.dropWhile isPySpace).reverse

/-- Python `str.strip()`. -/
def pyStrip (s : String) : String :=
  String.mk (trimChars s.data)

/-- Python `str.startswith(p)`. -/
def pyStartsWith (s p : String) : Bool :=
  p.data.isPrefixOf s.data

/-- Python `s.split(sep)` for a one-character separator, on character lists.
`Python`: splitting the empty string yields `[""]`. -/
def splitCharOn (sep : Char) : List Char → List (List Char)
  | [] => [[]]
  | c :: rest =>
    let r := splitCharOn sep rest
    if c = sep then [] :: r
    else
      match r with
      | [] => [[c]]
      | g :: gs => (c :: g) :: gs

/-- Python `s.split(sep)` for a one-character separator string. -/
def pySplitChar (s : String) (sep : Char) : List String :=
  (splitCharOn sep s.data).map String.mk

/-- Fueled worker for splitting on a multi-character separator: scans left to
right, consuming non-overlapping occurrences of `sep`.  The fuel is the
length of the scanned list, which bounds the recursion. -/
def splitSubAux (sep : List Char) : Nat → List Char → List (List Char)
  | _, [] => [[]]
  | 0, s => [s]
  | n + 1, c :: rest =>
    if sep.isPrefixOf (c :: rest) then
      [] :: splitSubAux sep n (List.drop sep.length (c :: rest))
    else
      match splitSubAux sep n rest with
      | [] => [[c]]
      | g :: gs => (c :: g) :: gs

/-- Python `s.split(sep)` for an arbitrary non-empty separator string. -/
def pySplitOn (s sep : String) : List String :=
  (splitSubAux sep.data s.data.length s.data).map String.mk

/-- Python `"module.sub".split(".")[0]` — the top-level dotted-path component. -/
def topLevel (s : String) : String :=
  (pySplitChar s '.').headD s

/-- Join a list of strings with `"."` (used to enumerate dotted prefixes). -/
def joinDot : List String → String
  | [] => ""
  | [s] => s
  | s :: rest => s ++ "." ++ joinDot rest

/-- Strict lexicographic order on character lists by code point, as Python
compares strings. -/
def charsLt : List Char → List Char → Bool
  | [], [] => false
  | [], _ :: _ => true
  | _ :: _, [] => false
  | a :: xs, b :: ys =>
    if a.val < b.val then true
    else if b.val < a.val then false
    else charsLt xs ys

/-- Python `<` on strings. -/
def pyStrLt (a b : String) : Bool :=
  charsLt a.data b.data

/-- Python `<` on pairs of strings (tuple comparison). -/
def pyPairLt (a b : String × String) : Bool :=
  pyStrLt a.1 b.1 || (a.1 == b.1 && pyStrLt a.2 b.2)

/-- Stable insertion used by `pySorted`: the new element goes after every
strictly smaller element and before the first element not smaller. -/
def pyInsortBy (lt : α → α → Bool) (x : α) : List α → List α
  | [] => [x]
  | y :: ys => if lt y x then y :: pyInsortBy lt x ys else x :: y :: ys

/-- Python `sorted` (a stable sort) for a strict order `lt`. -/
def pySorted (lt : α → α → Bool) : List α → List α
  | [] => []
  | x :: xs => pyInsortBy lt x (pySorted lt xs)

/-- First index of `x` in a list (`list.index`, with `none` for the
`ValueError` case). -/
def myIdxOf? [DecidableEq α] (x : α) : List α → Option Nat
  | [] => none
  | a :: rest => if a = x then some 0 else (myIdxOf? x rest).map (· + 1)

/-- Index of the last occurrence of `x` in a list, counted from the left. -/
def lastIdxOf? [DecidableEq α] (x : α) : List α → Option Nat
  | [] => none
  | a :: rest =>
    match lastIdxOf? x rest with
    | some i => some (i + 1)
    | none => if a = x then some 0 else none

/-! ## get_app_name (source lines 36-62)

`MODELS_MODULE_NAME` is imported by the source from `django.apps.config`;
its value there is the constant string `"models"`. -/

def MODELS_MODULE_NAME : String := "models"

/-- Source lines 36-62.  `rparts` is the reversed segment list; the inner
`try` catches the `ValueError` of a failed `.index` (the `none` branch of
`myIdxOf?`), the outer `try` catches the `IndexError` of an out-of-range
subscript (the `none` branches of `List.get?`). -/
def get_app_name (mod_name : String) : String :=
  let rparts := (pySplitChar mod_name '.').reverse
  match myIdxOf? MODELS_MODULE_NAME rparts with
  | some i =>
    match rparts.get? (i + 1) with
    | some v => v
    | none => mod_name
  | none =>
    match rparts.get? 1 with
    | some v => v
    | none => mod_name

/-- Modelled from the claim's words (C2): "the path segment immediately
following the last 'models' segment", reading the dotted path left to
right; `none` when no 'models' segment exists or nothing follows it. -/
def segment_following_last_models (mod_name : String) : Option String :=
  let ps := pySplitChar mod_name '.'
  match lastIdxOf? MODELS_MODULE_NAME ps with
  | some i => ps.get? (i + 1)
  | none => none

/-! ## The import world

A `World` lists the importable modules (by dotted path) together with the
attribute table that `dir()` / `getattr` see on each.  Values are opaque
object identities; modules are identified by their path so that the module
objects produced by `import` are first-class values. -/

/-- Generic association-list lookup (`dict.get`). -/
def alookup (xs : List (String × α)) (k : String) : Option α :=
  match xs with
  | [] => none
  | p :: rest => if p.1 = k then some p.2 else alookup rest k

/-- A runtime value: either a module object (identified by its dotted path)
or an opaque non-module object. -/
inductive Value where
  | module (path : String)
  | obj (n : Nat)
deriving DecidableEq, Repr

/-- The universe of importable modules: dotted path ↦ attribute table. -/
structure World where
  modules : List (String × List (String × Value))
deriving Repr

/-- Look up a registered module's attribute table. -/
def World.findModule (w : World) (q : String) : Option (List (String × Value)) :=
  alookup w.modules q

/-- All dotted prefixes of a path: `"a.b.c"` ↦ `["a", "a.b", "a.b.c"]`. -/
def dottedPrefixes (s : String) : List String :=
  let ps := pySplitChar s '.'
  (List.range ps.length).map (fun i => joinDot (ps.take (i + 1)))

/-- Whether importing `s` succeeds: as in Python, importing `a.b.c` imports
`a`, then `a.b`, then `a.b.c`, so every dotted prefix must be registered. -/
def importChainOk (w : World) (s : String) : Bool :=
  (dottedPrefixes s).all (fun p => (w.findModule p).isSome)

/-- Python `importlib.import_module(path)`: the module object, or `none` for the
`ImportError` case. -/
def importModule (w : World) (path : String) : Option Value :=
  if importChainOk w path then some (Value.module path) else none

/-- Python `getattr` on a module object, by module path.  `none` is the
`AttributeError` case. -/
def getattrV (w : World) (path attr : String) : Option Value :=
  match w.findModule path with
  | none => none
  | some attrs => alookup attrs attr

/-- Python `dir()` on a module object: the attribute names it exposes. -/
def dirOf (w : World) (path : String) : List String :=
  match w.findModule path with
  | none => []
  | some attrs => attrs.map Prod.fst

/-! ## Python dictionaries as insertion-ordered association lists -/

/-- The accumulated name ↦ object mapping (`imported_objects`). -/
abbrev PyDict := List (String × Value)

/-- Python `d[k] = v`: replace the value at an existing key, else append. -/
def dinsert (d : PyDict) (k : String) (v : Value) : PyDict :=
  if d.any (fun p => p.1 = k) then
    d.map (fun p => if p.1 = k then (k, v) else p)
  else
    d ++ [(k, v)]

/-- Python `d.get(k)`: first binding of `k`. -/
def dlookup (d : PyDict) (k : String) : Option Value :=
  match d with
  | [] => none
  | p :: rest => if p.1 = k then some p.2 else dlookup rest k

/-- The last binding of `k` in a (phase) dictionary. -/
def dlast (d : PyDict) (k : String) : Option Value :=
  dlookup d.reverse k

/-- Python `d.update(e)` realised as the source's `for k, v in e: d[k] = v`. -/
def dupdate (d e : PyDict) : PyDict :=
  e.foldl (fun acc kv => dinsert acc kv.1 kv.2) d

/-! ## Import statement ASTs and the statement parser

The source feeds statement-string directives to `ast.parse` and accepts only
`ast.Import` / `ast.ImportFrom` nodes.  The parser below recognises exactly
the single-statement import syntax (`import a.b [as c], ...`,
`from m import x [as y], ...`, `from m import *`); every other string is the
`ast.parse` failure case (`none`). -/

/-- One `name [as asname]` element of an import statement (`ast.alias`);
a `from ... import *` is represented, as in the Python AST, by the
name `"*"`. -/
structure ImpAlias where
  name : String
  asname : Option String
deriving DecidableEq, Repr

/-- An accepted statement node: `ast.Import` or `ast.ImportFrom`. -/
inductive PyStmt where
  | imp (names : List ImpAlias)
  | impFrom (module : String) (names : List ImpAlias)
deriving DecidableEq, Repr

/-- A character usable in a Python identifier (after the first). -/
def isIdentChar (c : Char) : Bool :=
  c.isAlphanum || c = '_'

/-- A plain Python identifier. -/
def isIdent (s : String) : Bool :=
  match s.data with
  | [] => false
  | c :: rest => (c.isAlpha || c = '_') && rest.all isIdentChar

/-- A dotted module path: one or more identifiers joined by dots. -/
def isDottedName (s : String) : Bool :=
  (pySplitChar s '.').all isIdent

/-- Parse a dotted name surrounded by optional whitespace. -/
def parseDotted (s : String) : Option String :=
  let t := pyStrip s
  if isDottedName t then some t else none

/-- Parse an identifier surrounded by optional whitespace. -/
def parseIdent (s : String) : Option String :=
  let t := pyStrip s
  if isIdent t then some t else none

/-- Parse one `name [as alias]` element of an `import` statement (the name
may be dotted). -/
def parseImpAlias (piece : String) : Option ImpAlias :=
  match pySplitOn piece " as " with
  | [a] => (parseDotted a).map (fun n => ImpAlias.mk n none)
  | [a, b] =>
    match parseDotted a, parseIdent b with
    | some n, some al => some (ImpAlias.mk n (some al))
    | _, _ => none
  | _ => none

/-- Parse one `name [as alias]` element of a `from` statement (the name must
be a plain identifier). -/
def parseFromAlias (piece : String) : Option ImpAlias :=
  match pySplitOn piece " as " with
  | [a] => (parseIdent a).map (fun n => ImpAlias.mk n none)
  | [a, b] =>
    match parseIdent a, parseIdent b with
    | some n, some al => some (ImpAlias.mk n (some al))
    | _, _ => none
  | _ => none

/-- Python `ast.parse` restricted to import statements: returns the statement list
(`node.body`, here always a singleton) or `none` for a syntax error. -/
def parseImportString (s : String) : Option (List PyStmt) :=
  if pyStartsWith s "import " then
    ((pySplitChar (s.drop 7) ',').mapM parseImpAlias).map
      (fun ns => [PyStmt.imp ns])
  else if pyStartsWith s "from " then
    match pySplitOn (s.drop 5) " import " with
    | [mp, np] =>
      match parseDotted mp with
      | none => none
      | some m =>
        if pyStrip np = "*" then some [PyStmt.impFrom m [ImpAlias.mk "*" none]]
        else
          ((pySplitChar np ',').mapM parseFromAlias).map
            (fun ns => [PyStmt.impFrom m ns])
    | _ => none
  else none

/-! ## Import directives and the exception model

`PyErr` lists the exceptions that can escape `import_items`:

* `importError` — raised by a failed import or raised explicitly at source
  line 147; it is the only exception the per-directive handler at source
  line 244 catches, after which the loop continues;
* `attributeError` — the `getattr` at source line 217 (legacy
  `(module, name)` form) is not inside any `except AttributeError`;
* `unboundLocalError` — when `ast.parse` fails and `quiet_load` is true,
  the `continue` at source line 91 is skipped (it sits inside the
  `if not quiet_load:` block) and line 92 reads the never-assigned `node`.
-/

inductive PyErr where
  | importError
  | attributeError
  | unboundLocalError
deriving DecidableEq, Repr

/-- The second element of a legacy two-tuple directive. -/
inductive TupleSecond where
  /-- a tuple or list whose elements are all strings -/
  | names (ns : List String)
  /-- a single string (possibly the special `"*"`) -/
  | single (s : String)
  /-- any other value: reported as "names must be strings" -/
  | otherVal
deriving DecidableEq, Repr

/-- One entry of `import_directives`.  `str` covers both statement strings
and legacy bare module strings; `pair2 fst snd` is a two-element tuple or
list where `fst = none` models a non-string module value; `badShape` is any
other Python value. -/
inductive Directive where
  | str (s : String)
  | pair2 (fst : Option String) (snd : TupleSecond)
  | badShape
deriving DecidableEq, Repr

/-- One step of the `dir()` loop and of the legacy names loop: bind `k` when
`getattr` succeeds, else keep the dictionary unchanged (the caller decides
whether the miss is an error). -/
def stepGetattr (w : World) (p : String) (a : PyDict) (k : String) : PyDict :=
  match getattrV w p k with
  | some v => dinsert a k v
  | none => a

/-- Source lines 130-134 and 210-211: `for k in dir(o): d[k] = getattr(o, k)`.
For `k ∈ dir` the `getattr` always succeeds; the fall-through branch is
unreachable and keeps the function total. -/
def starBind (w : World) (path : String) (acc : PyDict) : PyDict :=
  (dirOf w path).foldl (stepGetattr w path) acc

/-- Source lines 107-122, the `ast.Import` case: each `name [as asname]` in
order; a failed import raises `ImportError` at that point, keeping the
bindings already made. -/
def procImportNames (w : World) : List ImpAlias → PyDict → PyDict × Option PyErr
  | [], acc => (acc, none)
  | n :: rest, acc =>
    match n.asname with
    | some a =>
      match importModule w n.name with
      | some v => procImportNames w rest (dinsert acc a v)
      | none => (acc, some PyErr.importError)
    | none =>
      -- import the full path, then bind only the top-level module
      if importChainOk w n.name then
        match importModule w (topLevel n.name) with
        | some v => procImportNames w rest (dinsert acc (topLevel n.name) v)
        | none => (acc, some PyErr.importError)
      else (acc, some PyErr.importError)

/-- Source lines 127-147, the `ast.ImportFrom` name loop over an already
already imported module.  An unresolved name prints the attributes and
re-raises as `ImportError` (line 147), aborting this directive only. -/
def procFromNames (w : World) (mp : String) : List ImpAlias → PyDict → PyDict × Option PyErr
  | [], acc => (acc, none)
  | n :: rest, acc =>
    if n.name = "*" then
      procFromNames w mp rest (starBind w mp acc)
    else
      match getattrV w mp n.name with
      | some v => procFromNames w mp rest (dinsert acc (n.asname.getD n.name) v)
      | none => (acc, some PyErr.importError)

/-- Source lines 106-147: the two `isinstance` branches for one statement
node.  Line 124 is `importlib.__import__(module, {}, {}, fromlist)`, whose
failure raises `ImportError` before any name is bound. -/
def procStmt (w : World) (b : PyStmt) (acc : PyDict) : PyDict × Option PyErr :=
  match b with
  | PyStmt.imp ns => procImportNames w ns acc
  | PyStmt.impFrom m ns =>
    if importChainOk w m then procFromNames w m ns acc
    else (acc, some PyErr.importError)

/-- Source lines 106-147: process the parsed statement bodies in order; an
exception leaves the loop at once. -/
def procBodies (w : World) : List PyStmt → PyDict → PyDict × Option PyErr
  | [], acc => (acc, none)
  | b :: rest, acc =>
    match procStmt w b acc with
    | (acc', none) => procBodies w rest acc'
    | (acc', some e) => (acc', some e)

/-- Source lines 79-243: handle one directive against the accumulated
dictionary.  The returned `Option PyErr` is the exception escaping the
directive body (before the handler of line 244 is consulted). -/
def processDirective (w : World) (quiet_load : Bool) (d : Directive) (acc : PyDict) : PyDict × Option PyErr :=
  match d with
  | Directive.str s0 =>
    let s := pyStrip s0
    if pyStartsWith s "from " || pyStartsWith s "import " then
      match parseImportString s with
      | none =>
        -- lines 88-91: the `continue` is guarded by `if not quiet_load`;
        -- in quiet mode line 92 then reads the unassigned `node`
        if quiet_load then (acc, some PyErr.unboundLocalError) else (acc, none)
      | some stmts => procBodies w stmts acc
    else
      -- lines 155-160: legacy bare module string
      if importChainOk w s then
        (dinsert acc (topLevel s) (Value.module (topLevel s)), none)
      else (acc, some PyErr.importError)
  | Directive.pair2 fst snd =>
    match fst with
    | none => (acc, none) -- lines 162-173: module name not a string, reported
    | some m =>
      match snd with
      | TupleSecond.names ns =>
        -- lines 175-201: __import__(m, {}, {}, ns); missing names are
        -- caught as AttributeError and skipped
        if importChainOk w m then
          (ns.foldl (stepGetattr w (if ns.isEmpty then topLevel m else m)) acc, none)
        else (acc, some PyErr.importError)
      | TupleSecond.single s =>
        if s = "*" then
          -- lines 206-215
          if importChainOk w m then (starBind w m acc, none)
          else (acc, some PyErr.importError)
        else
          -- lines 216-228: the getattr of line 217 is not guarded, so a
          -- missing attribute raises AttributeError out of import_items
          if importChainOk w m then
            match getattrV w m s with
            | some v => (dinsert acc s v, none)
            | none => (acc, some PyErr.attributeError)
          else (acc, some PyErr.importError)
      | TupleSecond.otherVal => (acc, none) -- lines 229-236, reported
  | Directive.badShape => (acc, none) -- lines 237-243, reported

/-- The directive loop of source lines 79-246: `except ImportError` reports
and continues with the dictionary as already mutated; any other exception
escapes `import_items`. -/
def import_items_go (w : World) (quiet_load : Bool) : List Directive → PyDict → Except PyErr PyDict
  | [], acc => Except.ok acc
  | d :: rest, acc =>
    match processDirective w quiet_load d acc with
    | (acc', none) => import_items_go w quiet_load rest acc'
    | (acc', some PyErr.importError) => import_items_go w quiet_load rest acc'
    | (_, some e) => Except.error e

/-- Source lines 65-248: interpret the directives and return the name ↦
object dictionary (or the escaping exception). -/
def import_items (w : World) (import_directives : List Directive) (quiet_load : Bool) : Except PyErr PyDict :=
  import_items_go w quiet_load import_directives []

/-! ## The automatic importer and model discovery (source lines 251-441) -/

/-- Modelled from the spec: the "dynamic-import primitive (resolve dotted
path → object)" consumed by the automatic importer, i.e.
`django.utils.module_loading.import_string`: split at the last dot, import
the module part, `getattr` the final component; any failure is the
`ImportError` case. -/
def import_string (w : World) (dotted_path : String) : Option Value :=
  match (pySplitChar dotted_path '.').reverse with
  | [] => none
  | [_] => none
  | cls :: restRev =>
    let mp := joinDot restRev.reverse
    if importChainOk w mp then getattrV w mp cls else none

/-- Observable output of `perform_automatic_imports`: the traceback printed
when the `traceback` option is set, the per-model failure report, and the
combined `from module import a, b (as c)` echo line. -/
inductive LogEntry where
  | tracebackPrinted
  | importFailed (model_name full_module_path : String)
  | echo (full_module_path : String) (model_labels : List String)
deriving DecidableEq, Repr

/-- Source lines 330-349, the inner loop of `perform_automatic_imports` over
`sorted(models)`: thread the dictionary, the echo labels and the log. -/
def performModels (w : World) (traceback_opt quiet_load : Bool) (full_module_path : String) :
    List (String × String) → PyDict → List String → List LogEntry →
    PyDict × List String × List LogEntry
  | [], acc, labels, log => (acc, labels, log)
  | (model_name, als) :: rest, acc, labels, log =>
    match import_string w (full_module_path ++ "." ++ model_name) with
    | some v =>
      performModels w traceback_opt quiet_load full_module_path rest
        (dinsert acc als v)
        (labels ++ [if model_name = als then model_name
                    else model_name ++ " (as " ++ als ++ ")"])
        log
    | none =>
      performModels w traceback_opt quiet_load full_module_path rest acc labels
        (log ++ (if traceback_opt then [LogEntry.tracebackPrinted] else [])
             ++ (if quiet_load then [] else [LogEntry.importFailed model_name full_module_path]))

/-- Source lines 322-356: import every `(model, alias)` of every module,
catching per-model `ImportError`; returns the updated dictionary and the
emitted output. -/
def perform_automatic_imports (w : World) (traceback_opt quiet_load : Bool) :
    List (String × List (String × String)) → PyDict → List LogEntry →
    PyDict × List LogEntry
  | [], acc, log => (acc, log)
  | (full_module_path, models) :: rest, acc, log =>
    match performModels w traceback_opt quiet_load full_module_path
        (pySorted pyPairLt models) acc [] log with
    | (acc', labels, log') =>
      perform_automatic_imports w traceback_opt quiet_load rest acc'
        (log' ++ (if quiet_load then [] else [LogEntry.echo full_module_path labels]))

/-- A model class as seen through the application registry: its `__name__`
and its `__module__`. -/
structure ModelInfo where
  name : String
  module : String
deriving DecidableEq, Repr

/-- One installed application: `app.models_module.__name__` when the app has
a models module, and `app.get_models()`. -/
structure AppCfg where
  models_module : Option String
  models : List ModelInfo
deriving DecidableEq, Repr

/-- One entry of the mongoengine `_document_registry`: the registry key and
the document class's `__module__`. -/
structure MongoDoc where
  regName : String
  module : String
deriving DecidableEq, Repr

/-- The full input of `import_objects`: the importable-module world, the
`options` dict, the Django settings, the application registry, the optional
mongoengine registry, and the two external strategy capabilities (collision
resolver and subclass finder, whose code lives outside this module). -/
structure Shell where
  world : World
  dont_load : List String
  quiet_load : Bool
  traceback_opt : Bool
  shell_plus_dont_load : List String
  model_aliases : List (String × List (String × String))
  app_prefixes : List (String × String)
  pre_imports : List Directive
  subclasses_import : List String
  subclasses_found : List (String × List (String × String))
  resolver : List (String × List String) → List (String × List (String × String))
  django_imports_enabled : Bool
  user_imports : List Directive
  post_imports : List Directive
  apps : List AppCfg
  mongo : Option (List MongoDoc)

/-- Source line 262: `dont_load = dont_load_cli + dont_load_conf`. -/
def dontLoadOf (c : Shell) : List String :=
  c.dont_load ++ c.shell_plus_dont_load

/-- Source line 263: `dont_load_any_models = "*" in dont_load`. -/
def dontLoadAny (c : Shell) : Bool :=
  (dontLoadOf c).contains "*"

/-- Python `load_models.setdefault(k, []); load_models[k].append(v)`. -/
def lmAppend : List (String × List String) → String → String → List (String × List String)
  | [], k, v => [(k, [v])]
  | (k', vs) :: rest, k, v =>
    if k' = k then (k', vs ++ [v]) :: rest else (k', vs) :: lmAppend rest k v

/-- Source lines 358-361: `(app.models_module, app.get_models())` for every
app whose `models_module` is set. -/
def getAppsAndModels (c : Shell) : List (String × List ModelInfo) :=
  c.apps.filterMap (fun a => a.models_module.map (fun n => (n, a.models)))

/-- One step of the mongoengine loop (source lines 380-387): the model name
is the registry key's last dotted segment; skip when the derived app name or
the `app.Model` label is denylisted, else record under `mod.__module__`
(with no empty-module check). -/
def mongoStep (c : Shell) (acc : List (String × List String)) (d : MongoDoc) : List (String × List String) :=
  if (dontLoadOf c).contains (get_app_name d.module)
      || (dontLoadOf c).contains
        (get_app_name d.module ++ "." ++ (pySplitChar d.regName '.').getLastD d.regName) then acc
  else lmAppend acc d.module ((pySplitChar d.regName '.').getLastD d.regName)

/-- Source lines 379-387: the mongoengine discovery loop.  Note: unlike the
registry loop below, it has no empty-`__module__` check. -/
def addMongoModels (c : Shell) (lm : List (String × List String)) : List (String × List String) :=
  match c.mongo with
  | none => lm
  | some docs =>
    if dontLoadAny c then lm
    else docs.foldl (mongoStep c) lm

/-- One step of the per-app model loop (source lines 398-405): skip a
denylisted `app.Model` label or an empty `__module__`, else record the
model under its `__module__`. -/
def appModelStep (c : Shell) (app_name : String) (acc : List (String × List String)) (m : ModelInfo) : List (String × List String) :=
  if (dontLoadOf c).contains (app_name ++ "." ++ m.name) then acc
  else if m.module = "" then acc
  else lmAppend acc m.module m.name

/-- One step of the app loop (source lines 390-405): skip apps with no
models or with a denylisted derived name. -/
def appStep (c : Shell) (acc : List (String × List String)) (am : String × List ModelInfo) : List (String × List String) :=
  if am.2.isEmpty then acc
  else if (dontLoadOf c).contains (get_app_name am.1) then acc
  else am.2.foldl (appModelStep c (get_app_name am.1)) acc

/-- Source lines 389-405: the application-registry discovery loop; a model
is recorded only when its `__module__` is non-empty (line 402). -/
def addAppModels (c : Shell) (lm : List (String × List String)) : List (String × List String) :=
  if dontLoadAny c then lm
  else (getAppsAndModels c).foldl (appStep c) lm

/-- The `load_models` dictionary as populated by source lines 379-405. -/
def build_load_models (c : Shell) : List (String × List String) :=
  addAppModels c (addMongoModels c [])

/-- Source lines 272-300: the alias computation of lines 290-296 (`if not
alias` / `if prefix` are Python truthiness tests, so the empty string acts
like an absent entry). -/
def aliasFor (app_aliases : List (String × String)) (pfx : Option String) (model_name : String) : String :=
  let fromPfx :=
    match pfx with
    | some p => if p = "" then model_name else p ++ "_" ++ model_name
    | none => model_name
  match alookup app_aliases model_name with
  | some a => if a = "" then fromPfx else a
  | none => fromPfx

/-- One step of the inner loop of lines 286-299: the model-level denylist
re-check of line 287, then insertion under the computed alias. -/
def dictModelStep (c : Shell) (app_mod app_name : String) (app_aliases : List (String × String)) (pfx : Option String) (acc : List (String × List String)) (model_name : String) : List (String × List String) :=
  if (dontLoadOf c).contains (app_name ++ "." ++ model_name) then acc
  else lmAppend acc (aliasFor app_aliases pfx model_name) (app_mod ++ "." ++ model_name)

/-- One step of the outer loop of lines 281-299: derive the app name and its
alias/prefix configuration, then fold the sorted model names. -/
def dictEntryStep (c : Shell) (mti : List (String × List String)) (e : String × List String) : List (String × List String) :=
  (pySorted pyStrLt e.2).foldl
    (dictModelStep c e.1 (get_app_name e.1)
      ((alookup c.model_aliases (get_app_name e.1)).getD [])
      (alookup c.app_prefixes (get_app_name e.1)))
    mti

/-- Source lines 272-300: turn `load_models` into the name ↦ candidate-path
map handed to the collision resolver, applying the model-level denylist a
second time (line 287). -/
def get_dict_from_names_to_possible_models (c : Shell) (lm : List (String × List String)) : List (String × List String) :=
  (pySorted (fun a b => pyStrLt a.1 b.1) lm).foldl (dictEntryStep c) []

/-- Source lines 20-29: the Django convenience import statements. -/
def SHELL_PLUS_DJANGO_IMPORTS : List Directive :=
  [Directive.str "from django.core.cache import cache",
   Directive.str "from django.conf import settings",
   Directive.str "from django.contrib.auth import get_user_model",
   Directive.str "from django.db import transaction",
   Directive.str "from django.db.models import Avg, Case, Count, F, Max, Min, Prefetch, Q, Sum, When",
   Directive.str "from django.utils import timezone",
   Directive.str "from django.urls import reverse",
   Directive.str "from django.db.models import Exists, OuterRef, Subquery"]

/-- The name ↦ (model, alias) map fed to the final import pass (source
lines 317-320): the external collision resolver applied to the discovery
output. -/
def modules_to_models (c : Shell) : List (String × List (String × String)) :=
  c.resolver (get_dict_from_names_to_possible_models c (build_load_models c))

/-- The bindings contributed by the pre-imports phase (lines 371-377). -/
def phase_pre (c : Shell) : Except PyErr PyDict :=
  if c.pre_imports.isEmpty then Except.ok []
  else import_items c.world c.pre_imports c.quiet_load

/-- The bindings contributed by the subclass-imports phase (lines 302-309):
the subclass finder's output fed to the automatic importer. -/
def phase_subclasses (c : Shell) : PyDict :=
  if c.subclasses_import.isEmpty then []
  else (perform_automatic_imports c.world c.traceback_opt c.quiet_load c.subclasses_found [] []).1

/-- The bindings contributed by the model-imports phase (lines 311-320,
414). -/
def phase_models (c : Shell) : PyDict :=
  (perform_automatic_imports c.world c.traceback_opt c.quiet_load (modules_to_models c) [] []).1

/-- The bindings contributed by the Django-builtin-imports phase (lines
417-422). -/
def phase_django (c : Shell) : Except PyErr PyDict :=
  if c.django_imports_enabled then import_items c.world SHELL_PLUS_DJANGO_IMPORTS c.quiet_load
  else Except.ok []

/-- The bindings contributed by the user-imports phase (lines 424-430). -/
def phase_user (c : Shell) : Except PyErr PyDict :=
  if c.user_imports.isEmpty then Except.ok []
  else import_items c.world c.user_imports c.quiet_load

/-- The bindings contributed by the post-imports phase (lines 432-439). -/
def phase_post (c : Shell) : Except PyErr PyDict :=
  if c.post_imports.isEmpty then Except.ok []
  else import_items c.world c.post_imports c.quiet_load

/-- The source's `imports = import_items(...)` followed by
`for k, v in imports.items(): imported_objects[k] = v`: a raised exception
propagates, otherwise the phase result is folded into the accumulator. -/
def updByItems (acc : PyDict) (r : Except PyErr PyDict) : Except PyErr PyDict :=
  match r with
  | Except.error e => Except.error e
  | Except.ok imports => Except.ok (dupdate acc imports)

/-- Source lines 251-441: the orchestrator.  Phases run in the fixed order
pre-imports, subclass imports, model imports, Django builtin imports,
user imports, post-imports, each updating the accumulated dictionary in
place. -/
def import_objects (c : Shell) : Except PyErr PyDict :=
  -- lines 371-377: pre-imports
  match (if c.pre_imports.isEmpty then Except.ok ([] : PyDict)
         else updByItems [] (import_items c.world c.pre_imports c.quiet_load)) with
  | Except.error e => Except.error e
  | Except.ok acc1 =>
    -- lines 379-405 populate load_models (consumed by the models phase)
    -- line 407: subclass imports
    let acc2 :=
      if c.subclasses_import.isEmpty then acc1
      else (perform_automatic_imports c.world c.traceback_opt c.quiet_load c.subclasses_found acc1 []).1
    -- line 414: model imports (discovery + collision resolution + import)
    let acc3 := (perform_automatic_imports c.world c.traceback_opt c.quiet_load (modules_to_models c) acc2 []).1
    -- lines 417-422: Django builtin imports
    match (if c.django_imports_enabled
           then updByItems acc3 (import_items c.world SHELL_PLUS_DJANGO_IMPORTS c.quiet_load)
           else Except.ok acc3) with
    | Except.error e => Except.error e
    | Except.ok acc4 =>
      -- lines 424-430: user imports
      match (if c.user_imports.isEmpty then Except.ok acc4
             else updByItems acc4 (import_items c.world c.user_imports c.quiet_load)) with
      | Except.error e => Except.error e
      | Except.ok acc5 =>
        -- lines 432-439: post-imports
        match (if c.post_imports.isEmpty then Except.ok acc5
               else updByItems acc5 (import_items c.world c.post_imports c.quiet_load)) with
        | Except.error e => Except.error e
        | Except.ok acc6 => Except.ok acc6

/-! ## Derived semantic functions used by the theorems -/

/-- Left-biased choice on optional values ("the later phase wins"). -/
def oor (a b : Option Value) : Option Value :=
  match a with
  | some v => some v
  | none => b

/-- The key set of a dictionary. -/
def dKeys (d : PyDict) : List String :=
  d.map Prod.fst

/-- The `(alias, value)` pairs that the inner loop of
`perform_automatic_imports` adds for one module, in execution order. -/
def modelBinds (w : World) (mp : String) : List (String × String) → List (String × Value)
  | [] => []
  | (n, a) :: rest =>
    match import_string w (mp ++ "." ++ n) with
    | some v => (a, v) :: modelBinds w mp rest
    | none => modelBinds w mp rest

/-- All `(alias, value)` pairs added by `perform_automatic_imports`, in
execution order. -/
def performBinds (w : World) (mtc : List (String × List (String × String))) : List (String × Value) :=
  mtc.foldr (fun e r => modelBinds w e.1 (pySorted pyPairLt e.2) ++ r) []

/-- A value is obtainable by a successful import from `w`: it is a module
object whose whole import chain is registered, or it is an attribute value
exposed by some registered module. -/
def World.provides (w : World) (v : Value) : Bool :=
  (match v with
   | Value.module p => importChainOk w p
   | Value.obj _ => false)
  || w.modules.any (fun me => me.2.any (fun a => a.2 = v))

/-- Membership in a `load_models`-shaped dictionary: module `m` maps to a
list containing model name `n`. -/
def lmMem (lm : List (String × List String)) (m n : String) : Prop :=
  ∃ ns, (m, ns) ∈ lm ∧ n ∈ ns

/-- All candidate paths of a `models_to_import`-shaped dictionary. -/
def valuesJoin (xs : List (String × List String)) : List String :=
  xs.foldr (fun e r => e.2 ++ r) []

/-- The discovery conditions of the mongoengine loop (source lines 379-387)
for recording model name `n` under module key `m`. -/
def mongoContributes (c : Shell) (m n : String) : Prop :=
  ∃ docs, c.mongo = some docs ∧
    ∃ d ∈ docs, d.module = m ∧ (pySplitChar d.regName '.').getLastD d.regName = n ∧
      get_app_name m ∉ dontLoadOf c ∧ (get_app_name m ++ "." ++ n) ∉ dontLoadOf c

/-- The discovery conditions of the application-registry loop (source lines
389-405) for recording model name `n` under module key `m`. -/
def appContributes (c : Shell) (m n : String) : Prop :=
  ∃ p ∈ getAppsAndModels c, p.2 ≠ [] ∧ get_app_name p.1 ∉ dontLoadOf c ∧
    ∃ mi ∈ p.2, mi.module = m ∧ mi.name = n ∧
      (get_app_name p.1 ++ "." ++ n) ∉ dontLoadOf c ∧ m ≠ ""

/-- The `(alias, value)` pairs contributed by the subclass-imports phase
(none when `SHELL_PLUS_SUBCLASSES_IMPORT` is empty). -/
def subBindsOf (c : Shell) : PyDict :=
  if c.subclasses_import.isEmpty then []
  else performBinds c.world c.subclasses_found

/-- The `(alias, value)` pairs contributed by the model-imports phase. -/
def modelBindsOf (c : Shell) : PyDict :=
  performBinds c.world (modules_to_models c)

/-! ## Concrete fixtures used by the witness theorems -/

/-- A small import world shared by the witnesses. -/
def Wex : World := ⟨[
  ("m", [("good1", Value.obj 1), ("good2", Value.obj 2)]),
  ("os", [("sep", Value.obj 3)]),
  ("x", [("y", Value.module "x.y")]),
  ("x.y", [("z", Value.obj 9)]),
  ("app1", []),
  ("app1.models", [("Foo", Value.obj 21), ("Bar", Value.obj 22)]),
  ("app2", []),
  ("app2.models", [("Foo", Value.obj 31)])]⟩

/-- A baseline shell configuration for the witnesses. -/
def CexBase : Shell := {
  world := Wex
  dont_load := []
  quiet_load := false
  traceback_opt := false
  shell_plus_dont_load := []
  model_aliases := []
  app_prefixes := []
  pre_imports := []
  subclasses_import := []
  subclasses_found := []
  resolver := fun _ => []
  django_imports_enabled := false
  user_imports := []
  post_imports := []
  apps := []
  mongo := none }

/-- Witness configuration for the phase-override claim: the model phase
binds `Foo`, the user phase rebinds it. -/
def Cex4 : Shell := { CexBase with
  pre_imports := [Directive.str "from m import good1"]
  resolver := fun _ => [("app1.models", [("Foo", "Foo")])]
  apps := [⟨some "app1.models", [⟨"Foo", "app1.models"⟩]⟩]
  user_imports := [Directive.str "from m import good2 as Foo"] }

/-- Witness configuration for the denylist claim: a wildcard denylist. -/
def Cex3 : Shell := { CexBase with
  dont_load := ["*"]
  apps := [⟨some "app1.models", [⟨"Foo", "app1.models"⟩, ⟨"Bar", "app1.models"⟩]⟩]
  mongo := some [⟨"pkg.Doc", "app2.models"⟩] }

/-- Counterexample configuration for the empty-`__module__` claim: a
document-registry entry whose class has an empty `__module__`. -/
def Cex9 : Shell := { CexBase with
  mongo := some [⟨"pkg.Doc", ""⟩]
  apps := [⟨some "app1.models", [⟨"Foo", "app1.models"⟩, ⟨"Empty", ""⟩]⟩] }

/-! ## Dictionary lemmas -/

theorem dlookup_nil (k : String) : dlookup [] k = none := rfl

theorem dlookup_cons (p : String × Value) (rest : PyDict) (k : String) :
    dlookup (p :: rest) k = if p.1 = k then some p.2 else dlookup rest k := rfl

theorem dlookup_map_replace_ne {d : PyDict} {k k' : String} {v : Value} (h : k' ≠ k) :
    dlookup (d.map (fun p => if p.1 = k then (k, v) else p)) k' = dlookup d k' := by
  induction d with
  | nil => rfl
  | cons p rest ih =>
    have hkk : ¬ (k = k') := fun hh => h hh.symm
    by_cases hpk : p.1 = k
    · have hpk' : ¬ (p.1 = k') := by rw [hpk]; exact hkk
      simp [dlookup_cons, hpk, hkk, hpk', ih]
    · simp [dlookup_cons, hpk, ih]

theorem dlookup_map_replace_self {d : PyDict} {k : String} {v : Value}
    (h : d.any (fun p => p.1 = k) = true) :
    dlookup (d.map (fun p => if p.1 = k then (k, v) else p)) k = some v := by
  induction d with
  | nil => simp at h
  | cons p rest ih =>
    rw [List.map_cons, dlookup_cons]
    by_cases hpk : p.1 = k
    · rw [if_pos hpk]
      simp
    · rw [if_neg hpk]
      simp only [List.any_cons, Bool.or_eq_true, decide_eq_true_eq] at h
      rcases h with h | h
      · exact absurd h hpk
      · rw [if_neg hpk, ih h]

theorem dlookup_append_single (d : PyDict) (k k' : String) (v : Value)
    (h : d.any (fun p => p.1 = k) = false) :
    dlookup (d ++ [(k, v)]) k' = if k' = k then some v else dlookup d k' := by
  induction d with
  | nil =>
    by_cases hk : k' = k
    · simp [dlookup_cons, dlookup_nil, hk]
    · have hkk : ¬ (k = k') := fun hh => hk hh.symm
      simp [dlookup_cons, dlookup_nil, hk, hkk]
  | cons p rest ih =>
    simp only [List.any_cons, Bool.or_eq_false_iff, decide_eq_false_iff_not] at h
    by_cases hak : p.1 = k'
    · have hkk : ¬ (k' = k) := fun hh => h.1 (hak.trans hh)
      simp [dlookup_cons, hak, hkk]
    · simp [dlookup_cons, hak, ih (by simpa using h.2)]

theorem dlookup_dinsert (d : PyDict) (k k' : String) (v : Value) :
    dlookup (dinsert d k v) k' = if k' = k then some v else dlookup d k' := by
  unfold dinsert
  by_cases hany : d.any (fun p => p.1 = k) = true
  · rw [if_pos hany]
    by_cases hk : k' = k
    · subst hk; rw [if_pos rfl, dlookup_map_replace_self hany]
    · rw [if_neg hk, dlookup_map_replace_ne hk]
  · have hf : d.any (fun p => p.1 = k) = false := by
      revert hany; cases d.any (fun p => p.1 = k) <;> simp
    rw [if_neg hany, dlookup_append_single d k k' v hf]

theorem dupdate_nil (d : PyDict) : dupdate d [] = d := rfl

theorem dupdate_cons (d : PyDict) (k : String) (v : Value) (e : PyDict) :
    dupdate d ((k, v) :: e) = dupdate (dinsert d k v) e := rfl

theorem dupdate_single (d : PyDict) (k : String) (v : Value) :
    dupdate d [(k, v)] = dinsert d k v := rfl

theorem dupdate_append (d : PyDict) (e1 e2 : PyDict) :
    dupdate d (e1 ++ e2) = dupdate (dupdate d e1) e2 :=
  List.foldl_append _ _ _ _

theorem dlast_nil (k : String) : dlast [] k = none := rfl

theorem dlast_append_single (e : PyDict) (a k : String) (b : Value) :
    dlast (e ++ [(a, b)]) k = if a = k then some b else dlast e k := by
  simp only [dlast, List.reverse_append, List.reverse_cons, List.reverse_nil,
    List.nil_append, List.singleton_append, dlookup_cons]

theorem dlookup_dupdate (e d : PyDict) (k : String) :
    dlookup (dupdate d e) k = oor (dlast e k) (dlookup d k) := by
  induction e using List.reverseRecOn generalizing d with
  | nil => simp [dupdate_nil, dlast_nil, oor]
  | append_singleton e' x ih =>
    obtain ⟨a, b⟩ := x
    rw [dupdate_append, dlast_append_single, dupdate_single, dlookup_dinsert]
    by_cases hak : a = k
    · rw [if_pos hak, if_pos hak.symm]
      simp [oor]
    · rw [if_neg hak, if_neg (fun hh => hak hh.symm), ih]

theorem mem_dinsert {d : PyDict} {k : String} {v : Value} {kv : String × Value}
    (h : kv ∈ dinsert d k v) : kv ∈ d ∨ kv = (k, v) := by
  unfold dinsert at h
  by_cases hany : d.any (fun p => p.1 = k) = true
  · rw [if_pos hany] at h
    rcases List.mem_map.mp h with ⟨p, hp, hpe⟩
    by_cases hpk : p.1 = k
    · right; rw [if_pos hpk] at hpe; exact hpe.symm
    · left; rw [if_neg hpk] at hpe; exact hpe ▸ hp
  · rw [if_neg hany] at h
    rcases List.mem_append.mp h with h | h
    · exact Or.inl h
    · exact Or.inr (List.mem_singleton.mp h)

theorem mem_dupdate {d e : PyDict} {kv : String × Value}
    (h : kv ∈ dupdate d e) : kv ∈ d ∨ kv ∈ e := by
  induction e generalizing d with
  | nil => exact Or.inl h
  | cons x rest ih =>
    obtain ⟨a, b⟩ := x
    rw [dupdate_cons] at h
    rcases ih h with h' | h'
    · rcases mem_dinsert h' with h'' | h''
      · exact Or.inl h''
      · exact Or.inr (by simp [h''])
    · exact Or.inr (List.mem_cons_of_mem _ h')

theorem dKeys_dinsert_mem {d : PyDict} {k k' : String} {v : Value}
    (h : k' ∈ dKeys d) : k' ∈ dKeys (dinsert d k v) := by
  unfold dinsert
  by_cases hany : d.any (fun p => p.1 = k) = true
  · rw [if_pos hany]
    rcases List.mem_map.mp h with ⟨p, hp, hpe⟩
    by_cases hpk : p.1 = k
    · refine List.mem_map.mpr ⟨(k, v), List.mem_map.mpr ⟨p, hp, by rw [if_pos hpk]⟩, ?_⟩
      rw [← hpe, hpk]
    · exact List.mem_map.mpr ⟨p, List.mem_map.mpr ⟨p, hp, by rw [if_neg hpk]⟩, hpe⟩
  · rw [if_neg hany]
    unfold dKeys at h ⊢
    rw [List.map_append]
    exact List.mem_append_left _ h

theorem dKeys_dinsert_self (d : PyDict) (k : String) (v : Value) :
    k ∈ dKeys (dinsert d k v) := by
  unfold dinsert
  by_cases hany : d.any (fun p => p.1 = k) = true
  · rw [if_pos hany]
    rcases List.any_eq_true.mp hany with ⟨p, hp, hpk⟩
    simp only [decide_eq_true_eq] at hpk
    exact List.mem_map.mpr ⟨(k, v), List.mem_map.mpr ⟨p, hp, by rw [if_pos hpk]⟩, rfl⟩
  · rw [if_neg hany]
    unfold dKeys
    rw [List.map_append]
    exact List.mem_append_right _ (by simp)

/-! ## List helper lemmas -/

theorem mem_pyInsortBy {lt : α → α → Bool} {x y : α} {l : List α} :
    y ∈ pyInsortBy lt x l ↔ y = x ∨ y ∈ l := by
  induction l with
  | nil => simp [pyInsortBy]
  | cons a rest ih =>
    unfold pyInsortBy
    by_cases hlt : lt a x = true
    · rw [if_pos hlt]
      simp only [List.mem_cons, ih]
      tauto
    · rw [if_neg hlt]
      simp only [List.mem_cons]

theorem mem_pySorted {lt : α → α → Bool} {x : α} {l : List α} :
    x ∈ pySorted lt l ↔ x ∈ l := by
  induction l with
  | nil => simp [pySorted]
  | cons a rest ih =>
    unfold pySorted
    rw [mem_pyInsortBy]
    simp only [List.mem_cons, ih]

theorem alookup_mem {α : Type} {xs : List (String × α)} {k : String} {v : α}
    (h : alookup xs k = some v) : (k, v) ∈ xs := by
  induction xs with
  | nil => simp [alookup] at h
  | cons p rest ih =>
    unfold alookup at h
    by_cases hak : p.1 = k
    · rw [if_pos hak] at h
      simp only [Option.some.injEq] at h
      have hp : p = (k, v) := Prod.ext hak h
      rw [hp]
      exact List.mem_cons_self _ _
    · rw [if_neg hak] at h
      exact List.mem_cons_of_mem _ (ih h)

theorem scontains_iff {l : List String} {x : String} :
    l.contains x = true ↔ x ∈ l := by
  simp [List.contains, List.elem_iff]

/-! ## perform_automatic_imports as a dictionary update -/

theorem performModels_acc (w : World) (tb q : Bool) (mp : String) :
    ∀ (ms : List (String × String)) (acc : PyDict) (labels : List String) (log : List LogEntry),
    (performModels w tb q mp ms acc labels log).1 = dupdate acc (modelBinds w mp ms) := by
  intro ms
  induction ms with
  | nil => intro acc labels log; simp [performModels, modelBinds, dupdate_nil]
  | cons p rest ih =>
    intro acc labels log
    obtain ⟨n, a⟩ := p
    cases himp : import_string w (mp ++ "." ++ n) with
    | some v => simp [performModels, modelBinds, himp, ih, dupdate_cons]
    | none => simp [performModels, modelBinds, himp, ih]

theorem perform_acc (w : World) (tb q : Bool) :
    ∀ (mtc : List (String × List (String × String))) (acc : PyDict) (log : List LogEntry),
    (perform_automatic_imports w tb q mtc acc log).1 = dupdate acc (performBinds w mtc) := by
  intro mtc
  induction mtc with
  | nil => intro acc log; simp [perform_automatic_imports, performBinds, dupdate_nil]
  | cons e rest ih =>
    intro acc log
    obtain ⟨mp, ms⟩ := e
    show (perform_automatic_imports w tb q rest
        (performModels w tb q mp (pySorted pyPairLt ms) acc [] log).1 _).1 = _
    rw [ih, performModels_acc]
    show _ = dupdate acc (modelBinds w mp (pySorted pyPairLt ms) ++ performBinds w rest)
    rw [dupdate_append]

/-! ## Dotted-path and top-level-module lemmas -/

theorem splitCharOn_ne_nil (sep : Char) (cs : List Char) : splitCharOn sep cs ≠ [] := by
  induction cs with
  | nil => simp [splitCharOn]
  | cons c rest ih =>
    unfold splitCharOn
    by_cases hc : c = sep
    · simp [hc]
    · rw [if_neg hc]
      cases hr : splitCharOn sep rest with
      | nil => exact absurd hr ih
      | cons g gs => simp

theorem sep_not_mem_of_mem_splitCharOn {sep : Char} {cs : List Char} :
    ∀ g ∈ splitCharOn sep cs, sep ∉ g := by
  induction cs with
  | nil =>
    intro g hg
    simp [splitCharOn] at hg
    simp [hg]
  | cons c rest ih =>
    intro g hg
    unfold splitCharOn at hg
    by_cases hc : c = sep
    · rw [if_pos hc] at hg
      rcases List.mem_cons.mp hg with h | h
      · simp [h]
      · exact ih g h
    · rw [if_neg hc] at hg
      cases hr : splitCharOn sep rest with
      | nil => exact absurd hr (splitCharOn_ne_nil sep rest)
      | cons g0 gs =>
        rw [hr] at hg
        rcases List.mem_cons.mp hg with h | h
        · subst h
          intro hmem
          rcases List.mem_cons.mp hmem with h' | h'
          · exact hc h'.symm
          · exact ih g0 (by rw [hr]; exact List.mem_cons_self _ _) h'
        · exact ih g (by rw [hr]; exact List.mem_cons_of_mem _ h)

theorem splitCharOn_of_not_mem {sep : Char} {cs : List Char} (h : sep ∉ cs) :
    splitCharOn sep cs = [cs] := by
  induction cs with
  | nil => rfl
  | cons c rest ih =>
    unfold splitCharOn
    have hc : ¬ (c = sep) := fun hh => h (by simp [hh])
    rw [if_neg hc, ih (fun hh => h (List.mem_cons_of_mem _ hh))]

theorem topLevel_head (s : String) :
    ∃ g gs, splitCharOn '.' s.data = g :: gs ∧ topLevel s = String.mk g := by
  cases hr : splitCharOn '.' s.data with
  | nil => exact absurd hr (splitCharOn_ne_nil '.' s.data)
  | cons g gs =>
    exact ⟨g, gs, rfl, by simp [topLevel, pySplitChar, hr]⟩

theorem dottedPrefixes_topLevel (s : String) :
    dottedPrefixes (topLevel s) = [topLevel s] := by
  obtain ⟨g, gs, hr, ht⟩ := topLevel_head s
  have hg : '.' ∉ g := sep_not_mem_of_mem_splitCharOn g (by rw [hr]; exact List.mem_cons_self _ _)
  have hsplit : splitCharOn '.' (topLevel s).data = [(topLevel s).data] :=
    splitCharOn_of_not_mem (by rw [ht]; exact hg)
  simp [dottedPrefixes, pySplitChar, hsplit, joinDot]

theorem topLevel_mem_dottedPrefixes (s : String) : topLevel s ∈ dottedPrefixes s := by
  obtain ⟨g, gs, hr, ht⟩ := topLevel_head s
  have hps : pySplitChar s '.' = String.mk g :: gs.map String.mk := by
    simp [pySplitChar, hr]
  refine List.mem_map.mpr ⟨0, ?_, ?_⟩
  · simp [hps]
  · simp [hps, joinDot, ht]

theorem chainOk_topLevel {w : World} {s : String} (h : importChainOk w s = true) :
    importChainOk w (topLevel s) = true := by
  have hmem := topLevel_mem_dottedPrefixes s
  have hsome : (w.findModule (topLevel s)).isSome = true := by
    have := List.all_eq_true.mp h
    exact this _ hmem
  unfold importChainOk
  rw [dottedPrefixes_topLevel]
  simpa using hsome

/-! ## provides lemmas -/

theorem provides_of_getattr {w : World} {p a : String} {v : Value}
    (h : getattrV w p a = some v) : World.provides w v = true := by
  unfold getattrV at h
  cases hm : w.findModule p with
  | none => rw [hm] at h; exact absurd h (by simp)
  | some attrs =>
    rw [hm] at h
    have hattr : (a, v) ∈ attrs := alookup_mem h
    have hmod : (p, attrs) ∈ w.modules := alookup_mem hm
    unfold World.provides
    refine Bool.or_eq_true_iff.mpr (Or.inr ?_)
    refine List.any_eq_true.mpr ⟨(p, attrs), hmod, ?_⟩
    exact List.any_eq_true.mpr ⟨(a, v), hattr, by simp⟩

theorem provides_of_chainOk {w : World} {p : String} (h : importChainOk w p = true) :
    World.provides w (Value.module p) = true := by
  unfold World.provides
  exact Bool.or_eq_true_iff.mpr (Or.inl h)

theorem provides_of_importModule {w : World} {p : String} {v : Value}
    (h : importModule w p = some v) : World.provides w v = true := by
  unfold importModule at h
  by_cases hc : importChainOk w p = true
  · rw [if_pos hc] at h
    simp only [Option.some.injEq] at h
    rw [← h]
    exact provides_of_chainOk hc
  · rw [if_neg hc] at h
    exact absurd h (by simp)

theorem provides_of_import_string {w : World} {p : String} {v : Value}
    (h : import_string w p = some v) : World.provides w v = true := by
  unfold import_string at h
  cases hrev : (pySplitChar p '.').reverse with
  | nil => rw [hrev] at h; exact absurd h (by simp)
  | cons cls restRev =>
    cases restRev with
    | nil => rw [hrev] at h; exact absurd h (by simp)
    | cons r2 rr =>
      rw [hrev] at h
      simp only at h
      by_cases hc : importChainOk w (joinDot (r2 :: rr).reverse) = true
      · rw [if_pos hc] at h
        exact provides_of_getattr h
      · rw [if_neg hc] at h
        exact absurd h (by simp)

/-! ## Invariant: only successfully imported objects enter the mapping -/

theorem provides_stepGetattr {w : World} {p : String} {a : PyDict} {k : String}
    (h : ∀ kv ∈ a, World.provides w kv.2 = true) :
    ∀ kv ∈ stepGetattr w p a k, World.provides w kv.2 = true := by
  intro kv hkv
  unfold stepGetattr at hkv
  cases hg : getattrV w p k with
  | some v =>
    rw [hg] at hkv
    rcases mem_dinsert hkv with h' | h'
    · exact h kv h'
    · rw [h']
      exact provides_of_getattr hg
  | none =>
    rw [hg] at hkv
    exact h kv hkv

theorem provides_fold_stepGetattr (w : World) (p : String) :
    ∀ (l : List String) (acc : PyDict),
    (∀ kv ∈ acc, World.provides w kv.2 = true) →
    ∀ kv ∈ l.foldl (stepGetattr w p) acc, World.provides w kv.2 = true := by
  intro l
  induction l with
  | nil => intro acc h kv hkv; exact h kv hkv
  | cons k rest ih =>
    intro acc h kv hkv
    rw [List.foldl_cons] at hkv
    exact ih _ (provides_stepGetattr h) kv hkv

theorem provides_starBind (w : World) (p : String) (acc : PyDict)
    (h : ∀ kv ∈ acc, World.provides w kv.2 = true) :
    ∀ kv ∈ starBind w p acc, World.provides w kv.2 = true :=
  provides_fold_stepGetattr w p (dirOf w p) acc h

theorem provides_procImportNames (w : World) :
    ∀ (ns : List ImpAlias) (acc : PyDict),
    (∀ kv ∈ acc, World.provides w kv.2 = true) →
    ∀ kv ∈ (procImportNames w ns acc).1, World.provides w kv.2 = true := by
  intro ns
  induction ns with
  | nil => intro acc h kv hkv; exact h kv hkv
  | cons n rest ih =>
    intro acc h kv hkv
    unfold procImportNames at hkv
    cases hn : n.asname with
    | some a =>
      rw [hn] at hkv
      cases him : importModule w n.name with
      | some v =>
        rw [him] at hkv
        refine ih _ ?_ kv hkv
        intro kv' hkv'
        rcases mem_dinsert hkv' with h' | h'
        · exact h kv' h'
        · rw [h']
          exact provides_of_importModule him
      | none =>
        rw [him] at hkv
        exact h kv hkv
    | none =>
      rw [hn] at hkv
      by_cases hc : importChainOk w n.name = true
      · rw [if_pos hc] at hkv
        cases him : importModule w (topLevel n.name) with
        | some v =>
          rw [him] at hkv
          refine ih _ ?_ kv hkv
          intro kv' hkv'
          rcases mem_dinsert hkv' with h' | h'
          · exact h kv' h'
          · rw [h']
            exact provides_of_importModule him
        | none =>
          rw [him] at hkv
          exact h kv hkv
      · rw [if_neg hc] at hkv
        exact h kv hkv

theorem provides_procFromNames (w : World) (mp : String) :
    ∀ (ns : List ImpAlias) (acc : PyDict),
    (∀ kv ∈ acc, World.provides w kv.2 = true) →
    ∀ kv ∈ (procFromNames w mp ns acc).1, World.provides w kv.2 = true := by
  intro ns
  induction ns with
  | nil => intro acc h kv hkv; exact h kv hkv
  | cons n rest ih =>
    intro acc h kv hkv
    unfold procFromNames at hkv
    by_cases hstar : n.name = "*"
    · rw [if_pos hstar] at hkv
      exact ih _ (provides_starBind w mp acc h) kv hkv
    · rw [if_neg hstar] at hkv
      cases hg : getattrV w mp n.name with
      | some v =>
        rw [hg] at hkv
        refine ih _ ?_ kv hkv
        intro kv' hkv'
        rcases mem_dinsert hkv' with h' | h'
        · exact h kv' h'
        · rw [h']
          exact provides_of_getattr hg
      | none =>
        rw [hg] at hkv
        exact h kv hkv

theorem provides_procStmt (w : World) (b : PyStmt) (acc : PyDict)
    (h : ∀ kv ∈ acc, World.provides w kv.2 = true) :
    ∀ kv ∈ (procStmt w b acc).1, World.provides w kv.2 = true := by
  cases b with
  | imp ns => exact provides_procImportNames w ns acc h
  | impFrom m ns =>
    intro kv hkv
    simp only [procStmt] at hkv
    by_cases hc : importChainOk w m = true
    · rw [if_pos hc] at hkv
      exact provides_procFromNames w m ns acc h kv hkv
    · rw [if_neg hc] at hkv
      exact h kv hkv

theorem provides_procBodies (w : World) :
    ∀ (bs : List PyStmt) (acc : PyDict),
    (∀ kv ∈ acc, World.provides w kv.2 = true) →
    ∀ kv ∈ (procBodies w bs acc).1, World.provides w kv.2 = true := by
  intro bs
  induction bs with
  | nil => intro acc h kv hkv; exact h kv hkv
  | cons b rest ih =>
    intro acc h kv hkv
    have hstep := provides_procStmt w b acc h
    unfold procBodies at hkv
    cases hs : procStmt w b acc with
    | mk acc' e =>
      rw [hs] at hkv hstep
      cases e with
      | none => exact ih acc' hstep kv hkv
      | some e' => exact hstep kv hkv

theorem provides_processDirective (w : World) (q : Bool) (d : Directive) (acc : PyDict)
    (h : ∀ kv ∈ acc, World.provides w kv.2 = true) :
    ∀ kv ∈ (processDirective w q d acc).1, World.provides w kv.2 = true := by
  intro kv hkv
  cases d with
  | str s0 =>
    simp only [processDirective] at hkv
    by_cases hpre : (pyStartsWith (pyStrip s0) "from " || pyStartsWith (pyStrip s0) "import ") = true
    · rw [if_pos hpre] at hkv
      cases hp : parseImportString (pyStrip s0) with
      | none =>
        rw [hp] at hkv
        cases hq : q with
        | true => rw [hq] at hkv; exact h kv hkv
        | false => rw [hq] at hkv; exact h kv hkv
      | some stmts =>
        rw [hp] at hkv
        exact provides_procBodies w stmts acc h kv hkv
    · rw [if_neg hpre] at hkv
      by_cases hc : importChainOk w (pyStrip s0) = true
      · rw [if_pos hc] at hkv
        rcases mem_dinsert hkv with h' | h'
        · exact h kv h'
        · rw [h']
          exact provides_of_chainOk (chainOk_topLevel hc)
      · rw [if_neg hc] at hkv
        exact h kv hkv
  | pair2 fst snd =>
    cases fst with
    | none => exact h kv (by simpa [processDirective] using hkv)
    | some m =>
      cases snd with
      | names ns =>
        simp only [processDirective] at hkv
        by_cases hc : importChainOk w m = true
        · rw [if_pos hc] at hkv
          exact provides_fold_stepGetattr w _ ns acc h kv hkv
        · rw [if_neg hc] at hkv
          exact h kv hkv
      | single s =>
        simp only [processDirective] at hkv
        by_cases hstar : s = "*"
        · rw [if_pos hstar] at hkv
          by_cases hc : importChainOk w m = true
          · rw [if_pos hc] at hkv
            exact provides_starBind w m acc h kv hkv
          · rw [if_neg hc] at hkv
            exact h kv hkv
        · rw [if_neg hstar] at hkv
          by_cases hc : importChainOk w m = true
          · rw [if_pos hc] at hkv
            cases hg : getattrV w m s with
            | some v =>
              rw [hg] at hkv
              rcases mem_dinsert hkv with h' | h'
              · exact h kv h'
              · rw [h']
                exact provides_of_getattr hg
            | none =>
              rw [hg] at hkv
              exact h kv hkv
          · rw [if_neg hc] at hkv
            exact h kv hkv
      | otherVal => exact h kv (by simpa [processDirective] using hkv)
  | badShape => exact h kv (by simpa [processDirective] using hkv)

theorem provides_import_items_go (w : World) (q : Bool) :
    ∀ (ds : List Directive) (acc : PyDict),
    (∀ kv ∈ acc, World.provides w kv.2 = true) →
    ∀ res, import_items_go w q ds acc = Except.ok res →
    ∀ kv ∈ res, World.provides w kv.2 = true := by
  intro ds
  induction ds with
  | nil =>
    intro acc h res hres kv hkv
    simp only [import_items_go, Except.ok.injEq] at hres
    subst hres
    exact h kv hkv
  | cons d rest ih =>
    intro acc h res hres kv hkv
    unfold import_items_go at hres
    have hstep := provides_processDirective w q d acc h
    cases hpd : processDirective w q d acc with
    | mk acc' e =>
      rw [hpd] at hres hstep
      cases e with
      | none => exact ih acc' hstep res hres kv hkv
      | some e' =>
        cases e' with
        | importError => exact ih acc' hstep res hres kv hkv
        | attributeError => exact absurd hres (by simp)
        | unboundLocalError => exact absurd hres (by simp)

theorem provides_modelBinds (w : World) (mp : String) :
    ∀ (ms : List (String × String)), ∀ kv ∈ modelBinds w mp ms, World.provides w kv.2 = true := by
  intro ms
  induction ms with
  | nil => intro kv hkv; simp [modelBinds] at hkv
  | cons p rest ih =>
    intro kv hkv
    obtain ⟨n, a⟩ := p
    unfold modelBinds at hkv
    cases him : import_string w (mp ++ "." ++ n) with
    | some v =>
      rw [him] at hkv
      rcases List.mem_cons.mp hkv with h' | h'
      · rw [h']
        exact provides_of_import_string him
      · exact ih kv h'
    | none =>
      rw [him] at hkv
      exact ih kv hkv

theorem provides_performBinds (w : World) (mtc : List (String × List (String × String))) :
    ∀ kv ∈ performBinds w mtc, World.provides w kv.2 = true := by
  induction mtc with
  | nil => intro kv hkv; simp [performBinds] at hkv
  | cons e rest ih =>
    intro kv hkv
    unfold performBinds at hkv
    rw [List.foldr_cons] at hkv
    rcases List.mem_append.mp hkv with h' | h'
    · exact provides_modelBinds w e.1 _ kv h'
    · exact ih kv h'

/-! ## Decomposition of a successful import_objects run into its phases -/

theorem oor_none (a : Option Value) : oor a none = a := by
  cases a <;> rfl

theorem step_items_decompose {cond : Bool} {r : Except PyErr PyDict} {acc acc' : PyDict}
    (h : (if cond then Except.ok acc else updByItems acc r) = Except.ok acc') :
    ∃ d, (if cond then Except.ok [] else r) = Except.ok d ∧ acc' = dupdate acc d := by
  cases cond with
  | true =>
    rw [if_pos rfl] at h
    simp only [Except.ok.injEq] at h
    exact ⟨[], by rw [if_pos rfl], by rw [← h, dupdate_nil]⟩
  | false =>
    rw [if_neg (by simp)] at h
    unfold updByItems at h
    cases hr : r with
    | error e => rw [hr] at h; exact absurd h (by simp)
    | ok imports =>
      rw [hr] at h
      simp only [Except.ok.injEq] at h
      exact ⟨imports, by rw [if_neg (by simp)], h.symm⟩

theorem step_items_decompose2 {cond : Bool} {r : Except PyErr PyDict} {acc acc' : PyDict}
    (h : (if cond then updByItems acc r else Except.ok acc) = Except.ok acc') :
    ∃ d, (if cond then r else Except.ok []) = Except.ok d ∧ acc' = dupdate acc d := by
  cases cond with
  | true =>
    rw [if_pos rfl] at h
    unfold updByItems at h
    cases hr : r with
    | error e => rw [hr] at h; exact absurd h (by simp)
    | ok imports =>
      rw [hr] at h
      simp only [Except.ok.injEq] at h
      exact ⟨imports, by rw [if_pos rfl], h.symm⟩
  | false =>
    rw [if_neg (by simp)] at h
    simp only [Except.ok.injEq] at h
    exact ⟨[], by rw [if_neg (by simp)], by rw [← h, dupdate_nil]⟩

theorem subclasses_step (c : Shell) (acc : PyDict) :
    (if c.subclasses_import.isEmpty then acc
     else (perform_automatic_imports c.world c.traceback_opt c.quiet_load c.subclasses_found acc []).1)
    = dupdate acc (subBindsOf c) := by
  unfold subBindsOf
  cases he : c.subclasses_import.isEmpty with
  | true => rw [if_pos rfl, if_pos rfl, dupdate_nil]
  | false =>
    rw [if_neg (by simp), if_neg (by simp), perform_acc]

theorem import_objects_ok_decompose {c : Shell} {res : PyDict}
    (h : import_objects c = Except.ok res) :
    ∃ d1 d4 d5 d6,
      phase_pre c = Except.ok d1 ∧ phase_django c = Except.ok d4 ∧
      phase_user c = Except.ok d5 ∧ phase_post c = Except.ok d6 ∧
      res = dupdate (dupdate (dupdate (dupdate (dupdate (dupdate [] d1)
        (subBindsOf c)) (modelBindsOf c)) d4) d5) d6 := by
  unfold import_objects at h
  cases h1 : (if c.pre_imports.isEmpty then Except.ok ([] : PyDict)
      else updByItems [] (import_items c.world c.pre_imports c.quiet_load)) with
  | error e =>
    rw [h1] at h
    simp only [] at h
    exact Except.noConfusion h
  | ok acc1 =>
    rw [h1] at h
    simp only [] at h
    obtain ⟨d1, hd1, hacc1⟩ := step_items_decompose h1
    rw [subclasses_step c acc1, perform_acc] at h
    cases h4 : (if c.django_imports_enabled
        then updByItems (dupdate (dupdate acc1 (subBindsOf c)) (performBinds c.world (modules_to_models c)))
          (import_items c.world SHELL_PLUS_DJANGO_IMPORTS c.quiet_load)
        else Except.ok (dupdate (dupdate acc1 (subBindsOf c)) (performBinds c.world (modules_to_models c)))) with
    | error e =>
      rw [h4] at h
      simp only [] at h
      exact Except.noConfusion h
    | ok acc4 =>
      rw [h4] at h
      simp only [] at h
      obtain ⟨d4, hd4, hacc4⟩ := step_items_decompose2 h4
      cases h5 : (if c.user_imports.isEmpty then Except.ok acc4
          else updByItems acc4 (import_items c.world c.user_imports c.quiet_load)) with
      | error e =>
        rw [h5] at h
        simp only [] at h
        exact Except.noConfusion h
      | ok acc5 =>
        rw [h5] at h
        simp only [] at h
        obtain ⟨d5, hd5, hacc5⟩ := step_items_decompose h5
        cases h6 : (if c.post_imports.isEmpty then Except.ok acc5
            else updByItems acc5 (import_items c.world c.post_imports c.quiet_load)) with
        | error e =>
          rw [h6] at h
          simp only [] at h
          exact Except.noConfusion h
        | ok acc6 =>
          rw [h6] at h
          simp only [Except.ok.injEq] at h
          obtain ⟨d6, hd6, hacc6⟩ := step_items_decompose h6
          refine ⟨d1, d4, d5, d6, hd1, hd4, hd5, hd6, ?_⟩
          rw [← h, hacc6, hacc5, hacc4, hacc1]
          rfl

theorem provides_of_phase_items {w : World} {q cond : Bool} {ds : List Directive} {d : PyDict}
    (h : (if cond then Except.ok [] else import_items w ds q) = Except.ok d) :
    ∀ kv ∈ d, World.provides w kv.2 = true := by
  cases cond with
  | true =>
    rw [if_pos rfl] at h
    simp only [Except.ok.injEq] at h
    intro kv hkv
    rw [← h] at hkv
    simp at hkv
  | false =>
    rw [if_neg (by simp)] at h
    exact provides_import_items_go w q ds [] (by simp) d h

theorem provides_of_phase_items2 {w : World} {q cond : Bool} {ds : List Directive} {d : PyDict}
    (h : (if cond then import_items w ds q else Except.ok []) = Except.ok d) :
    ∀ kv ∈ d, World.provides w kv.2 = true := by
  cases cond with
  | true =>
    rw [if_pos rfl] at h
    exact provides_import_items_go w q ds [] (by simp) d h
  | false =>
    rw [if_neg (by simp)] at h
    simp only [Except.ok.injEq] at h
    intro kv hkv
    rw [← h] at hkv
    simp at hkv

theorem provides_subBindsOf (c : Shell) :
    ∀ kv ∈ subBindsOf c, World.provides c.world kv.2 = true := by
  unfold subBindsOf
  cases he : c.subclasses_import.isEmpty with
  | true => rw [if_pos rfl]; intro kv hkv; simp at hkv
  | false =>
    rw [if_neg (by simp)]
    exact provides_performBinds c.world c.subclasses_found

/-- C5: every key present in the accumulated result mapping — of the
directive interpreter, of the automatic importer, and of the whole
orchestrator — is bound to an object that was successfully imported from
the world; a failed import never inserts a binding. -/
theorem c5_only_successful_imports :
    (∀ (w : World) (ds : List Directive) (q : Bool) (res : PyDict),
        import_items w ds q = Except.ok res →
        ∀ kv ∈ res, World.provides w kv.2 = true)
    ∧ (∀ (w : World) (tb q : Bool) (mtc : List (String × List (String × String)))
        (acc : PyDict) (log : List LogEntry),
        (∀ kv ∈ acc, World.provides w kv.2 = true) →
        ∀ kv ∈ (perform_automatic_imports w tb q mtc acc log).1,
          World.provides w kv.2 = true)
    ∧ (∀ (c : Shell) (res : PyDict),
        import_objects c = Except.ok res →
        ∀ kv ∈ res, World.provides c.world kv.2 = true) := by
  refine ⟨?_, ?_, ?_⟩
  · intro w ds q res hres kv hkv
    exact provides_import_items_go w q ds [] (by simp) res hres kv hkv
  · intro w tb q mtc acc log h kv hkv
    rw [perform_acc] at hkv
    rcases mem_dupdate hkv with h' | h'
    · exact h kv h'
    · exact provides_performBinds w mtc kv h'
  · intro c res hres kv hkv
    obtain ⟨d1, d4, d5, d6, hd1, hd4, hd5, hd6, hres'⟩ := import_objects_ok_decompose hres
    rw [hres'] at hkv
    rcases mem_dupdate hkv with h' | h'
    · rcases mem_dupdate h' with h' | h'
      · rcases mem_dupdate h' with h' | h'
        · rcases mem_dupdate h' with h' | h'
          · rcases mem_dupdate h' with h' | h'
            · rcases mem_dupdate h' with h' | h'
              · simp at h'
              · exact provides_of_phase_items hd1 kv h'
            · exact provides_subBindsOf c kv h'
          · exact provides_performBinds c.world (modules_to_models c) kv h'
        · exact provides_of_phase_items2 hd4 kv h'
      · exact provides_of_phase_items hd5 kv h'
    · exact provides_of_phase_items hd6 kv h'

/-- Witness for C5: a concrete run binds `good1` to an object the world
actually provides. -/
theorem c5_witness :
    import_items Wex [Directive.str "from m import good1"] false
      = Except.ok [("good1", Value.obj 1)]
    ∧ World.provides Wex (Value.obj 1) = true := by
  constructor
  · rfl
  · exact c5_only_successful_imports.1 Wex [Directive.str "from m import good1"] false
      [("good1", Value.obj 1)] (by rfl) ("good1", Value.obj 1) (by simp)

/-! ## Phase ordering -/

theorem dlookup_phase_subclasses (c : Shell) (k : String) :
    dlookup (phase_subclasses c) k = dlast (subBindsOf c) k := by
  unfold phase_subclasses subBindsOf
  cases he : c.subclasses_import.isEmpty with
  | true => rw [if_pos rfl, if_pos rfl]; rfl
  | false =>
    rw [if_neg (by simp), if_neg (by simp), perform_acc, dlookup_dupdate, dlookup_nil, oor_none]

theorem dlookup_phase_models (c : Shell) (k : String) :
    dlookup (phase_models c) k = dlast (modelBindsOf c) k := by
  unfold phase_models modelBindsOf
  rw [perform_acc, dlookup_dupdate, dlookup_nil, oor_none]

/-- C4: `import_objects` layers its phases in the fixed order pre-imports,
subclass imports, model imports, Django builtin imports, user imports,
post-imports; for every symbol the returned mapping holds the value of the
latest phase that binds it, and in particular a name bound by both the
model-imports phase and the user-imports phase ends up bound to the
user-imports value whenever the post-imports phase does not rebind it. -/
theorem c4_phase_order_latest_wins :
    ∀ (c : Shell) (d1 d4 d5 d6 res : PyDict),
    phase_pre c = Except.ok d1 →
    phase_django c = Except.ok d4 →
    phase_user c = Except.ok d5 →
    phase_post c = Except.ok d6 →
    import_objects c = Except.ok res →
    (∀ k, dlookup res k =
      oor (dlast d6 k) (oor (dlast d5 k) (oor (dlast d4 k)
        (oor (dlookup (phase_models c) k)
          (oor (dlookup (phase_subclasses c) k) (dlast d1 k))))))
    ∧ (∀ k v, dlast d5 k = some v → dlast d6 k = none → dlookup res k = some v) := by
  intro c d1 d4 d5 d6 res hp1 hp4 hp5 hp6 hres
  obtain ⟨e1, e4, e5, e6, he1, he4, he5, he6, hdec⟩ := import_objects_ok_decompose hres
  have hd1 : d1 = e1 := by
    have := hp1.symm.trans he1
    exact Except.ok.inj this
  have hd4 : d4 = e4 := by
    have := hp4.symm.trans he4
    exact Except.ok.inj this
  have hd5 : d5 = e5 := by
    have := hp5.symm.trans he5
    exact Except.ok.inj this
  have hd6 : d6 = e6 := by
    have := hp6.symm.trans he6
    exact Except.ok.inj this
  subst hd1 hd4 hd5 hd6
  have hmain : ∀ k, dlookup res k =
      oor (dlast d6 k) (oor (dlast d5 k) (oor (dlast d4 k)
        (oor (dlookup (phase_models c) k)
          (oor (dlookup (phase_subclasses c) k) (dlast d1 k))))) := by
    intro k
    rw [hdec, dlookup_dupdate, dlookup_dupdate, dlookup_dupdate, dlookup_dupdate,
      dlookup_dupdate, dlookup_dupdate, dlookup_nil, oor_none,
      dlookup_phase_models, dlookup_phase_subclasses]
  refine ⟨hmain, ?_⟩
  intro k v h5 h6
  rw [hmain k, h6, h5]
  rfl

/-- Witness for C4: in `Cex4` the model phase binds `Foo` to the model
object and the user phase rebinds it; the final mapping holds the
user-imports value. -/
theorem c4_witness :
    import_objects Cex4 = Except.ok [("good1", Value.obj 1), ("Foo", Value.obj 2)]
    ∧ dlookup [("good1", Value.obj 1), ("Foo", Value.obj 2)] "Foo" = some (Value.obj 2) := by
  constructor
  · rfl
  · exact (c4_phase_order_latest_wins Cex4 [("good1", Value.obj 1)] [] [("Foo", Value.obj 2)] []
      [("good1", Value.obj 1), ("Foo", Value.obj 2)] rfl rfl rfl rfl rfl).2
      "Foo" (Value.obj 2) rfl rfl

/-! ## get_app_name: the derivation rule -/

theorem myIdxOf?_eq_none_of_not_mem [DecidableEq α] {x : α} {l : List α} (h : x ∉ l) :
    myIdxOf? x l = none := by
  induction l with
  | nil => rfl
  | cons a rest ih =>
    unfold myIdxOf?
    rw [if_neg (fun hh => h (by rw [hh]; exact List.mem_cons_self _ _)),
      ih (fun hh => h (List.mem_cons_of_mem _ hh))]
    rfl

theorem myIdxOf?_append_cons [DecidableEq α] {x : α} (l1 l2 : List α) (h : x ∉ l1) :
    myIdxOf? x (l1 ++ x :: l2) = some l1.length := by
  induction l1 with
  | nil => simp [myIdxOf?]
  | cons a rest ih =>
    rw [List.cons_append]
    unfold myIdxOf?
    rw [if_neg (fun hh => h (by rw [hh]; exact List.mem_cons_self _ _)),
      ih (fun hh => h (List.mem_cons_of_mem _ hh))]
    rfl

theorem reverse_get?_one (l : List α) : l.reverse.get? 1 = l.dropLast.getLast? := by
  induction l using List.reverseRecOn with
  | nil => rfl
  | append_singleton l' x _ =>
    rw [List.reverse_append]
    simp only [List.reverse_cons, List.reverse_nil, List.nil_append, List.singleton_append]
    rw [List.dropLast_concat]
    show l'.reverse.get? 0 = l'.getLast?
    rw [List.get?_zero, List.head?_reverse]

/-- Counterexample to C2 as stated: on `"a.models.b.c"` the code returns
`"a"`, the segment immediately *preceding* the last `"models"` segment,
while the claim's rule ("immediately following") names `"b"`. -/
theorem c2_counterexample :
    get_app_name "a.models.b.c" = "a"
    ∧ segment_following_last_models "a.models.b.c" = some "b"
    ∧ ("a" : String) ≠ "b" := by
  refine ⟨by decide, by decide, by decide⟩

/-- C2 (amended): `get_app_name` returns the segment immediately
*preceding* the last `"models"` segment when one exists (the whole path
when nothing precedes it); with no `"models"` segment it returns the
second-to-last segment, and the whole path when there are fewer than two
segments. -/
theorem c2_app_name_rule :
    ∀ (s : String),
    (∀ A B, pySplitChar s '.' = A ++ MODELS_MODULE_NAME :: B →
        MODELS_MODULE_NAME ∉ B →
        get_app_name s = (A.getLast?).getD s)
    ∧ (MODELS_MODULE_NAME ∉ pySplitChar s '.' →
        get_app_name s = ((pySplitChar s '.').dropLast.getLast?).getD s) := by
  intro s
  constructor
  · intro A B hsplit hnB
    have hm : MODELS_MODULE_NAME ∉ B.reverse := by simpa using hnB
    have hrev : (A ++ MODELS_MODULE_NAME :: B).reverse
        = B.reverse ++ (MODELS_MODULE_NAME :: A.reverse) := by
      simp [List.reverse_append]
    have hget : (B.reverse ++ (MODELS_MODULE_NAME :: A.reverse)).get? (B.reverse.length + 1)
        = A.getLast? := by
      rw [List.get?_append_right (by omega)]
      have : B.reverse.length + 1 - B.reverse.length = 1 := by omega
      rw [this]
      show A.reverse.get? 0 = A.getLast?
      rw [List.get?_zero, List.head?_reverse]
    simp only [get_app_name]
    rw [hsplit, hrev, myIdxOf?_append_cons _ _ hm]
    simp only []
    rw [hget]
    cases hA : A.getLast? with
    | some a => simp [hA]
    | none => simp [hA]
  · intro hnotin
    have hm : MODELS_MODULE_NAME ∉ (pySplitChar s '.').reverse := by simpa using hnotin
    simp only [get_app_name]
    rw [myIdxOf?_eq_none_of_not_mem hm, reverse_get?_one]
    cases hA : (pySplitChar s '.').dropLast.getLast? with
    | some a => simp [hA]
    | none => simp [hA]

/-- Witness for the amended C2 rule at concrete inputs. -/
theorem c2_witness :
    pySplitChar "x.models.y" '.' = ["x"] ++ MODELS_MODULE_NAME :: ["y"]
    ∧ get_app_name "x.models.y" = "x"
    ∧ MODELS_MODULE_NAME ∉ pySplitChar "q.r" '.'
    ∧ get_app_name "q.r" = "q" := by
  refine ⟨by decide, ?_, by decide, ?_⟩
  · have h := (c2_app_name_rule "x.models.y").1 ["x"] ["y"] (by decide) (by decide)
    simpa using h
  · have h := (c2_app_name_rule "q.r").2 (by decide)
    simpa using h

/-! ## Plain and aliased `import` statement semantics -/

/-- C10: a statement directive `import X.Y` without alias requires the full
path `X.Y` to import (failure leaves no binding) but binds only the
top-level name `X` to the top-level module; `import X.Y as Z` binds `Z` to
the submodule `X.Y` itself. -/
theorem c10_plain_import_binds_top_level :
    ∀ (w : World) (q : Bool) (s nm : String),
    pyStrip s = s →
    pyStartsWith s "import " = true →
    ((parseImportString s = some [PyStmt.imp [ImpAlias.mk nm none]] →
        (importChainOk w nm = true →
          import_items w [Directive.str s] q
            = Except.ok [(topLevel nm, Value.module (topLevel nm))])
        ∧ (importChainOk w nm = false →
          import_items w [Directive.str s] q = Except.ok []))
    ∧ (∀ z, parseImportString s = some [PyStmt.imp [ImpAlias.mk nm (some z)]] →
        importChainOk w nm = true →
        import_items w [Directive.str s] q = Except.ok [(z, Value.module nm)])) := by
  intro w q s nm hstrip himp
  have hcond : (pyStartsWith s "from " || pyStartsWith s "import ") = true :=
    Bool.or_eq_true_iff.mpr (Or.inr himp)
  constructor
  · intro hparse
    constructor
    · intro hchain
      have htop : importChainOk w (topLevel nm) = true := chainOk_topLevel hchain
      simp [import_items, import_items_go, processDirective, hstrip, hcond, hparse,
        procBodies, procStmt, procImportNames, importModule, hchain, htop, dinsert]
    · intro hchain
      simp [import_items, import_items_go, processDirective, hstrip, hcond, hparse,
        procBodies, procStmt, procImportNames, importModule, hchain]
  · intro z hparse hchain
    simp [import_items, import_items_go, processDirective, hstrip, hcond, hparse,
      procBodies, procStmt, procImportNames, importModule, hchain, dinsert]

/-- Witness for C10 at concrete statements over `Wex`. -/
theorem c10_witness :
    import_items Wex [Directive.str "import x.y"] false
      = Except.ok [("x", Value.module "x")]
    ∧ import_items Wex [Directive.str "import x.z"] false = Except.ok []
    ∧ import_items Wex [Directive.str "import x.y as q"] false
      = Except.ok [("q", Value.module "x.y")] := by
  have h1 := (c10_plain_import_binds_top_level Wex false "import x.y" "x.y"
    (by decide) (by decide)).1 (by decide)
  have h2 := (c10_plain_import_binds_top_level Wex false "import x.z" "x.z"
    (by decide) (by decide)).1 (by decide)
  have h3 := (c10_plain_import_binds_top_level Wex false "import x.y as q" "x.y"
    (by decide) (by decide)).2 "q" (by decide) (by decide)
  refine ⟨?_, h2.2 (by decide), h3⟩
  have := h1.1 (by decide)
  simpa using this

/-! ## Star imports bind every dir() name -/

theorem dlookup_stepGetattr_ne {w : World} {p : String} {a : PyDict} {k k' : String}
    (h : k' ≠ k) : dlookup (stepGetattr w p a k) k' = dlookup a k' := by
  unfold stepGetattr
  cases hg : getattrV w p k with
  | some v => rw [dlookup_dinsert, if_neg h]
  | none => rfl

theorem dlookup_fold_stepGetattr_not_mem (w : World) (p : String) :
    ∀ (l : List String) (acc : PyDict) (k : String), k ∉ l →
    dlookup (l.foldl (stepGetattr w p) acc) k = dlookup acc k := by
  intro l
  induction l with
  | nil => intro acc k _; rfl
  | cons a rest ih =>
    intro acc k hk
    rw [List.foldl_cons,
      ih _ _ (fun hh => hk (List.mem_cons_of_mem _ hh)),
      dlookup_stepGetattr_ne (fun hh => hk (by rw [hh]; exact List.mem_cons_self _ _))]

theorem dlookup_fold_stepGetattr_mem (w : World) (p : String) :
    ∀ (l : List String) (acc : PyDict) (k : String) (v : Value),
    getattrV w p k = some v → k ∈ l →
    dlookup (l.foldl (stepGetattr w p) acc) k = some v := by
  intro l
  induction l with
  | nil => intro acc k v _ hk; simp at hk
  | cons a rest ih =>
    intro acc k v hg hk
    rw [List.foldl_cons]
    by_cases hkr : k ∈ rest
    · exact ih _ k v hg hkr
    · have hka : k = a := by
        rcases List.mem_cons.mp hk with h | h
        · exact h
        · exact absurd h hkr
      rw [dlookup_fold_stepGetattr_not_mem w p rest _ k hkr]
      subst hka
      unfold stepGetattr
      rw [hg, dlookup_dinsert, if_pos rfl]

theorem alookup_isSome_of_mem_keys {α : Type} :
    ∀ {xs : List (String × α)} {k : String}, k ∈ xs.map Prod.fst →
    ∃ v, alookup xs k = some v := by
  intro xs
  induction xs with
  | nil => intro k h; simp at h
  | cons a rest ih =>
    intro k h
    unfold alookup
    by_cases hak : a.1 = k
    · exact ⟨a.2, by rw [if_pos hak]⟩
    · rw [if_neg hak]
      refine ih ?_
      rw [List.map_cons] at h
      rcases List.mem_cons.mp h with h' | h'
      · exact absurd h'.symm hak
      · exact h'

theorem getattrV_isSome_of_mem_dirOf {w : World} {p k : String} (h : k ∈ dirOf w p) :
    ∃ v, getattrV w p k = some v := by
  unfold dirOf at h
  unfold getattrV
  cases hm : w.findModule p with
  | none => rw [hm] at h; simp at h
  | some attrs =>
    rw [hm] at h
    simp only [] at h ⊢
    exact alookup_isSome_of_mem_keys h

/-- C8: a `*` directive, in statement-string form and in legacy tuple form,
produces the dictionary `starBind w m []`, which binds every name that
`dir()` reports on the module — none excluded — to that attribute's value. -/
theorem c8_star_binds_every_dir_name :
    ∀ (w : World) (q : Bool) (m s : String),
    pyStrip s = s →
    pyStartsWith s "from " = true →
    parseImportString s = some [PyStmt.impFrom m [ImpAlias.mk "*" none]] →
    importChainOk w m = true →
    import_items w [Directive.str s] q = Except.ok (starBind w m [])
    ∧ import_items w [Directive.pair2 (some m) (TupleSecond.single "*")] q
        = Except.ok (starBind w m [])
    ∧ ∀ k ∈ dirOf w m, dlookup (starBind w m []) k = getattrV w m k := by
  intro w q m s hstrip hfrom hparse hchain
  have hcond : (pyStartsWith s "from " || pyStartsWith s "import ") = true :=
    Bool.or_eq_true_iff.mpr (Or.inl hfrom)
  refine ⟨?_, ?_, ?_⟩
  · simp [import_items, import_items_go, processDirective, hstrip, hcond, hparse,
      procBodies, procStmt, procFromNames, hchain]
  · simp [import_items, import_items_go, processDirective, hchain]
  · intro k hk
    obtain ⟨v, hv⟩ := getattrV_isSome_of_mem_dirOf hk
    rw [hv]
    exact dlookup_fold_stepGetattr_mem w m (dirOf w m) [] k v hv hk

/-- Witness for C8: both forms of `from m import *` over `Wex`. -/
theorem c8_witness :
    import_items Wex [Directive.str "from m import *"] false
      = Except.ok [("good1", Value.obj 1), ("good2", Value.obj 2)]
    ∧ import_items Wex [Directive.pair2 (some "m") (TupleSecond.single "*")] false
      = Except.ok [("good1", Value.obj 1), ("good2", Value.obj 2)]
    ∧ dlookup (starBind Wex "m" []) "good1" = getattrV Wex "m" "good1" := by
  have h := c8_star_binds_every_dir_name Wex false "m" "from m import *"
    (by decide) (by decide) (by decide) (by decide)
  exact ⟨h.1, h.2.1, h.2.2 "good1" (by decide)⟩

/-! ## import_items can raise for a single bad directive -/

/-- C1 (code bug): a single bad directive can abort the whole batch.
With `quiet_load = True` a directive that fails to parse falls through the
`if not quiet_load:` guard of source line 89-91 (the `continue` of line 91
is inside the guard) and line 92 then reads the never-assigned `node`,
raising `UnboundLocalError`; and in either mode a legacy
`('module', 'name')` directive whose name does not exist raises the
`AttributeError` of the unguarded `getattr` at source line 217, which the
`except ImportError` of line 244 does not catch — so the later directives
of the batch produce no bindings.  Only the non-quiet parse-error path
reports and continues, as the third conjunct shows. -/
theorem c1_bad_directive_raises :
    import_items Wex [Directive.str "import ("] true
      = Except.error PyErr.unboundLocalError
    ∧ import_items Wex
        [Directive.pair2 (some "os") (TupleSecond.single "nope"),
         Directive.str "from m import good1"] false
      = Except.error PyErr.attributeError
    ∧ import_items Wex
        [Directive.str "import (", Directive.str "from m import good1"] false
      = Except.ok [("good1", Value.obj 1)] :=
  ⟨rfl, rfl, rfl⟩

/-! ## perform_automatic_imports: failures are reported, the rest imported -/

theorem dKeys_performModels_mono (w : World) (tb q : Bool) (mp : String) :
    ∀ (ms : List (String × String)) (acc : PyDict) (labels : List String)
      (log : List LogEntry) (k : String), k ∈ dKeys acc →
    k ∈ dKeys (performModels w tb q mp ms acc labels log).1 := by
  intro ms
  induction ms with
  | nil => intro acc labels log k hk; exact hk
  | cons p rest ih =>
    intro acc labels log k hk
    obtain ⟨n, a⟩ := p
    cases him : import_string w (mp ++ "." ++ n) with
    | some v =>
      simp only [performModels, him]
      exact ih _ _ _ k (dKeys_dinsert_mem hk)
    | none =>
      simp only [performModels, him]
      exact ih _ _ _ k hk

theorem dKeys_perform_mono (w : World) (tb q : Bool) :
    ∀ (mtc : List (String × List (String × String))) (acc : PyDict)
      (log : List LogEntry) (k : String), k ∈ dKeys acc →
    k ∈ dKeys (perform_automatic_imports w tb q mtc acc log).1 := by
  intro mtc
  induction mtc with
  | nil => intro acc log k hk; exact hk
  | cons e rest ih =>
    intro acc log k hk
    obtain ⟨mp, ms⟩ := e
    show k ∈ dKeys (perform_automatic_imports w tb q rest
      (performModels w tb q mp (pySorted pyPairLt ms) acc [] log).1 _).1
    exact ih _ _ k (dKeys_performModels_mono w tb q mp _ acc [] log k hk)

theorem performModels_success_key (w : World) (tb q : Bool) (mp : String) :
    ∀ (ms : List (String × String)) (acc : PyDict) (labels : List String)
      (log : List LogEntry) (n a : String) (v : Value),
    (n, a) ∈ ms → import_string w (mp ++ "." ++ n) = some v →
    a ∈ dKeys (performModels w tb q mp ms acc labels log).1 := by
  intro ms
  induction ms with
  | nil => intro acc labels log n a v h _; simp at h
  | cons p rest ih =>
    intro acc labels log n a v hmem him
    rcases List.mem_cons.mp hmem with h | h
    · subst h
      simp only [performModels, him]
      exact dKeys_performModels_mono w tb q mp rest _ _ _ a (dKeys_dinsert_self acc a v)
    · obtain ⟨n0, a0⟩ := p
      cases him0 : import_string w (mp ++ "." ++ n0) with
      | some v0 =>
        simp only [performModels, him0]
        exact ih _ _ _ n a v h him
      | none =>
        simp only [performModels, him0]
        exact ih _ _ _ n a v h him

theorem log_performModels_mono (w : World) (tb q : Bool) (mp : String) :
    ∀ (ms : List (String × String)) (acc : PyDict) (labels : List String)
      (log : List LogEntry) (x : LogEntry), x ∈ log →
    x ∈ (performModels w tb q mp ms acc labels log).2.2 := by
  intro ms
  induction ms with
  | nil => intro acc labels log x hx; exact hx
  | cons p rest ih =>
    intro acc labels log x hx
    obtain ⟨n, a⟩ := p
    cases him : import_string w (mp ++ "." ++ n) with
    | some v =>
      simp only [performModels, him]
      exact ih _ _ _ x hx
    | none =>
      simp only [performModels, him]
      exact ih _ _ _ x (by simp [hx])

theorem log_perform_mono (w : World) (tb q : Bool) :
    ∀ (mtc : List (String × List (String × String))) (acc : PyDict)
      (log : List LogEntry) (x : LogEntry), x ∈ log →
    x ∈ (perform_automatic_imports w tb q mtc acc log).2 := by
  intro mtc
  induction mtc with
  | nil => intro acc log x hx; exact hx
  | cons e rest ih =>
    intro acc log x hx
    obtain ⟨mp, ms⟩ := e
    show x ∈ (perform_automatic_imports w tb q rest _
      ((performModels w tb q mp (pySorted pyPairLt ms) acc [] log).2.2
        ++ (if q then [] else [LogEntry.echo mp
          (performModels w tb q mp (pySorted pyPairLt ms) acc [] log).2.1]))).2
    refine ih _ _ x ?_
    exact List.mem_append_left _ (log_performModels_mono w tb q mp _ acc [] log x hx)

theorem performModels_failure_log (w : World) (tb q : Bool) (mp : String) :
    ∀ (ms : List (String × String)) (acc : PyDict) (labels : List String)
      (log : List LogEntry) (n a : String),
    (n, a) ∈ ms → import_string w (mp ++ "." ++ n) = none →
    (tb = true → LogEntry.tracebackPrinted ∈ (performModels w tb q mp ms acc labels log).2.2)
    ∧ (q = false → LogEntry.importFailed n mp ∈ (performModels w tb q mp ms acc labels log).2.2) := by
  intro ms
  induction ms with
  | nil => intro acc labels log n a h _; simp at h
  | cons p rest ih =>
    intro acc labels log n a hmem him
    rcases List.mem_cons.mp hmem with h | h
    · subst h
      constructor
      · intro htb
        subst htb
        simp only [performModels, him]
        exact log_performModels_mono w true q mp rest _ _ _ _ (by simp)
      · intro hq
        subst hq
        simp only [performModels, him]
        exact log_performModels_mono w tb false mp rest _ _ _ _ (by simp)
    · obtain ⟨n0, a0⟩ := p
      cases him0 : import_string w (mp ++ "." ++ n0) with
      | some v0 =>
        simp only [performModels, him0]
        exact ih _ _ _ n a h him
      | none =>
        simp only [performModels, him0]
        exact ih _ _ _ n a h him

/-- Counterexample to C7 as stated: with the `traceback` option requested,
a per-model import failure is *not* re-raised — `perform_automatic_imports`
returns normally, the traceback is merely printed, and the module's
remaining model (`Bar`) is still imported and bound. -/
theorem c7_counterexample :
    perform_automatic_imports Wex true false
        [("app1.models", [("Aaa", "Aaa"), ("Bar", "Bar")])] [] []
      = ([("Bar", Value.obj 22)],
         [LogEntry.tracebackPrinted,
          LogEntry.importFailed "Aaa" "app1.models",
          LogEntry.echo "app1.models" ["Bar"]]) := rfl

/-- C7 (amended): a per-model import failure is caught; when the
`traceback` option is requested the full traceback is printed (not
re-raised), otherwise (unless quiet) the failure is reported; in every case
every other model of the batch whose import succeeds is still bound under
its alias. -/
theorem c7_failure_reported_rest_imported :
    ∀ (w : World) (tb q : Bool) (mtc : List (String × List (String × String)))
      (acc : PyDict) (log : List LogEntry)
      (mp : String) (models : List (String × String)) (n a : String),
    (mp, models) ∈ mtc → (n, a) ∈ models →
    (∀ v, import_string w (mp ++ "." ++ n) = some v →
        a ∈ dKeys (perform_automatic_imports w tb q mtc acc log).1)
    ∧ (import_string w (mp ++ "." ++ n) = none →
        (tb = true →
          LogEntry.tracebackPrinted ∈ (perform_automatic_imports w tb q mtc acc log).2)
        ∧ (q = false →
          LogEntry.importFailed n mp ∈ (perform_automatic_imports w tb q mtc acc log).2)) := by
  intro w tb q mtc
  induction mtc with
  | nil => intro acc log mp models n a h _; simp at h
  | cons e rest ih =>
    intro acc log mp models n a hmem hnm
    rcases List.mem_cons.mp hmem with h | h
    · obtain ⟨mp0, ms0⟩ := e
      obtain ⟨hmp, hms⟩ := Prod.mk.injEq _ _ _ _ ▸ h
      subst hmp hms
      have hnms : (n, a) ∈ pySorted pyPairLt models := mem_pySorted.mpr hnm
      constructor
      · intro v hv
        show a ∈ dKeys (perform_automatic_imports w tb q rest
          (performModels w tb q mp (pySorted pyPairLt models) acc [] log).1 _).1
        exact dKeys_perform_mono w tb q rest _ _ a
          (performModels_success_key w tb q mp _ acc [] log n a v hnms hv)
      · intro hnone
        have hfail := performModels_failure_log w tb q mp
          (pySorted pyPairLt models) acc [] log n a hnms hnone
        constructor
        · intro htb
          show LogEntry.tracebackPrinted ∈ (perform_automatic_imports w tb q rest
            (performModels w tb q mp (pySorted pyPairLt models) acc [] log).1
            ((performModels w tb q mp (pySorted pyPairLt models) acc [] log).2.2
              ++ (if q then [] else [LogEntry.echo mp
                (performModels w tb q mp (pySorted pyPairLt models) acc [] log).2.1]))).2
          exact log_perform_mono w tb q rest _ _ _
            (List.mem_append_left _ (hfail.1 htb))
        · intro hq
          show LogEntry.importFailed n mp ∈ (perform_automatic_imports w tb q rest
            (performModels w tb q mp (pySorted pyPairLt models) acc [] log).1
            ((performModels w tb q mp (pySorted pyPairLt models) acc [] log).2.2
              ++ (if q then [] else [LogEntry.echo mp
                (performModels w tb q mp (pySorted pyPairLt models) acc [] log).2.1]))).2
          exact log_perform_mono w tb q rest _ _ _
            (List.mem_append_left _ (hfail.2 hq))
    · obtain ⟨mp0, ms0⟩ := e
      have hrec := ih (performModels w tb q mp0 (pySorted pyPairLt ms0) acc [] log).1
        ((performModels w tb q mp0 (pySorted pyPairLt ms0) acc [] log).2.2
          ++ (if q then [] else [LogEntry.echo mp0
            (performModels w tb q mp0 (pySorted pyPairLt ms0) acc [] log).2.1]))
        mp models n a h hnm
      exact hrec

/-- Witness for the amended C7 at a concrete batch over `Wex`. -/
theorem c7_witness :
    "Bar" ∈ dKeys (perform_automatic_imports Wex true false
        [("app1.models", [("Aaa", "Aaa"), ("Bar", "Bar")])] [] []).1
    ∧ LogEntry.tracebackPrinted ∈ (perform_automatic_imports Wex true false
        [("app1.models", [("Aaa", "Aaa"), ("Bar", "Bar")])] [] []).2
    ∧ LogEntry.importFailed "Aaa" "app1.models" ∈ (perform_automatic_imports Wex true false
        [("app1.models", [("Aaa", "Aaa"), ("Bar", "Bar")])] [] []).2 := by
  have h1 := c7_failure_reported_rest_imported Wex true false
    [("app1.models", [("Aaa", "Aaa"), ("Bar", "Bar")])] [] []
    "app1.models" [("Aaa", "Aaa"), ("Bar", "Bar")] "Bar" "Bar"
    (by simp) (by simp)
  have h2 := c7_failure_reported_rest_imported Wex true false
    [("app1.models", [("Aaa", "Aaa"), ("Bar", "Bar")])] [] []
    "app1.models" [("Aaa", "Aaa"), ("Bar", "Bar")] "Aaa" "Aaa"
    (by simp) (by simp)
  refine ⟨h1.1 (Value.obj 22) (by decide), (h2.2 (by decide)).1 rfl, (h2.2 (by decide)).2 rfl⟩

/-! ## Legacy tuple directives versus statement strings -/

/-- Counterexample to C6 as stated: with `bad` missing from module `m`, the
legacy tuple `('m', ('good1', 'bad', 'good2'))` skips the missing name and
still binds `good2`, while the equivalent statement
`"from m import good1, bad, good2"` aborts the directive at `bad` (the
`raise ImportError` of source line 147), so `good2` is never bound. -/
theorem c6_counterexample :
    import_items Wex
        [Directive.pair2 (some "m") (TupleSecond.names ["good1", "bad", "good2"])] true
      = Except.ok [("good1", Value.obj 1), ("good2", Value.obj 2)]
    ∧ import_items Wex [Directive.str "from m import good1, bad, good2"] true
      = Except.ok [("good1", Value.obj 1)]
    ∧ ([("good1", Value.obj 1), ("good2", Value.obj 2)] : PyDict)
        ≠ [("good1", Value.obj 1)] :=
  ⟨rfl, rfl, by decide⟩

theorem procFromNames_eq_fold (w : World) (m : String) :
    ∀ (ns : List String) (acc : PyDict),
    (∀ n ∈ ns, (getattrV w m n).isSome = true) →
    (∀ n ∈ ns, n ≠ "*") →
    procFromNames w m (ns.map (fun n => ImpAlias.mk n none)) acc
      = (ns.foldl (stepGetattr w m) acc, none) := by
  intro ns
  induction ns with
  | nil => intro acc _ _; rfl
  | cons n rest ih =>
    intro acc hres hstar
    obtain ⟨v, hv⟩ := Option.isSome_iff_exists.mp (hres n (List.mem_cons_self _ _))
    rw [List.map_cons, List.foldl_cons]
    show (if n = "*" then _ else _) = _
    rw [if_neg (hstar n (List.mem_cons_self _ _))]
    simp only [hv]
    have hstep : stepGetattr w m acc n = dinsert acc n v := by
      unfold stepGetattr
      rw [hv]
    simp only [Option.getD_none]
    rw [← hstep]
    exact ih _ (fun x hx => hres x (List.mem_cons_of_mem _ hx))
      (fun x hx => hstar x (List.mem_cons_of_mem _ hx))

/-- C6 (amended): a legacy tuple directive produces exactly the same
bindings as its statement-string form in these cases — a bare module string
versus `import module` (unconditionally), `('m', '*')` versus
`from m import *` (unconditionally), `('m', 'name')` versus
`from m import name` when the module imports and the name resolves, and
`('m', (n1, ..., nk))` versus `from m import n1, ..., nk` when the
module imports and every listed name resolves.  (When a listed name does not
resolve the two forms genuinely differ — see the counterexample.) -/
theorem c6_legacy_tuple_equivalence :
    ∀ (w : World) (q : Bool),
    (∀ (s m : String), pyStrip s = s → pyStartsWith s "import " = true →
      parseImportString s = some [PyStmt.imp [ImpAlias.mk m none]] →
      pyStrip m = m →
      (pyStartsWith m "from " || pyStartsWith m "import ") = false →
      import_items w [Directive.str m] q = import_items w [Directive.str s] q)
    ∧ (∀ (m s : String), pyStrip s = s → pyStartsWith s "from " = true →
      parseImportString s = some [PyStmt.impFrom m [ImpAlias.mk "*" none]] →
      import_items w [Directive.pair2 (some m) (TupleSecond.single "*")] q
        = import_items w [Directive.str s] q)
    ∧ (∀ (m n s : String) (v : Value), pyStrip s = s → pyStartsWith s "from " = true →
      parseImportString s = some [PyStmt.impFrom m [ImpAlias.mk n none]] →
      n ≠ "*" → importChainOk w m = true → getattrV w m n = some v →
      import_items w [Directive.pair2 (some m) (TupleSecond.single n)] q
        = import_items w [Directive.str s] q
      ∧ import_items w [Directive.str s] q = Except.ok [(n, v)])
    ∧ (∀ (m s : String) (ns : List String), pyStrip s = s → pyStartsWith s "from " = true →
      parseImportString s = some [PyStmt.impFrom m (ns.map (fun n => ImpAlias.mk n none))] →
      ns ≠ [] → importChainOk w m = true →
      (∀ n ∈ ns, (getattrV w m n).isSome = true) →
      (∀ n ∈ ns, n ≠ "*") →
      import_items w [Directive.pair2 (some m) (TupleSecond.names ns)] q
        = import_items w [Directive.str s] q) := by
  intro w q
  refine ⟨?_, ?_, ?_, ?_⟩
  · intro s m hstrip himp hparse hmstrip hmno
    have hcond : (pyStartsWith s "from " || pyStartsWith s "import ") = true :=
      Bool.or_eq_true_iff.mpr (Or.inr himp)
    by_cases hc : importChainOk w m = true
    · have htop : importChainOk w (topLevel m) = true := chainOk_topLevel hc
      simp [import_items, import_items_go, processDirective, hstrip, hcond, hparse,
        procBodies, procStmt, procImportNames, importModule, hmstrip, hmno, hc, htop]
    · simp [import_items, import_items_go, processDirective, hstrip, hcond, hparse,
        procBodies, procStmt, procImportNames, importModule, hmstrip, hmno, hc]
  · intro m s hstrip hfrom hparse
    have hcond : (pyStartsWith s "from " || pyStartsWith s "import ") = true :=
      Bool.or_eq_true_iff.mpr (Or.inl hfrom)
    by_cases hc : importChainOk w m = true
    · simp [import_items, import_items_go, processDirective, hstrip, hcond, hparse,
        procBodies, procStmt, procFromNames, hc]
    · simp [import_items, import_items_go, processDirective, hstrip, hcond, hparse,
        procBodies, procStmt, procFromNames, hc]
  · intro m n s v hstrip hfrom hparse hnstar hc hv
    have hcond : (pyStartsWith s "from " || pyStartsWith s "import ") = true :=
      Bool.or_eq_true_iff.mpr (Or.inl hfrom)
    constructor
    · simp [import_items, import_items_go, processDirective, hstrip, hcond, hparse,
        procBodies, procStmt, procFromNames, hc, hnstar, hv]
    · simp [import_items, import_items_go, processDirective, hstrip, hcond, hparse,
        procBodies, procStmt, procFromNames, hc, hnstar, hv, dinsert]
  · intro m s ns hstrip hfrom hparse hne hc hres hstar
    have hcond : (pyStartsWith s "from " || pyStartsWith s "import ") = true :=
      Bool.or_eq_true_iff.mpr (Or.inl hfrom)
    have hfold := procFromNames_eq_fold w m ns [] hres hstar
    have hnsE : ns.isEmpty = false := by
      cases ns with
      | nil => exact absurd rfl hne
      | cons a l => rfl
    simp [import_items, import_items_go, processDirective, hstrip, hcond, hparse,
      procBodies, procStmt, hc, hfold, hnsE]

/-- Witness for the amended C6 at concrete directives over `Wex`. -/
theorem c6_witness :
    import_items Wex [Directive.str "m"] false
      = import_items Wex [Directive.str "import m"] false
    ∧ import_items Wex [Directive.pair2 (some "m") (TupleSecond.single "*")] false
      = import_items Wex [Directive.str "from m import *"] false
    ∧ import_items Wex [Directive.pair2 (some "m") (TupleSecond.single "good1")] false
      = import_items Wex [Directive.str "from m import good1"] false
    ∧ import_items Wex [Directive.pair2 (some "m") (TupleSecond.names ["good1", "good2"])] false
      = import_items Wex [Directive.str "from m import good1, good2"] false := by
  have h := c6_legacy_tuple_equivalence Wex false
  refine ⟨h.1 "import m" "m" (by decide) (by decide) (by decide) (by decide) (by decide),
    h.2.1 "m" "from m import *" (by decide) (by decide) (by decide),
    (h.2.2.1 "m" "good1" "from m import good1" (Value.obj 1)
      (by decide) (by decide) (by decide) (by decide) (by decide) (by decide)).1,
    h.2.2.2 "m" "from m import good1, good2" ["good1", "good2"]
      (by decide) (by decide) (by decide) (by decide) (by decide)
      (by decide) (by decide)⟩

/-! ## Discovery membership characterization -/

theorem lmMem_nil (m n : String) : ¬ lmMem ([] : List (String × List String)) m n := by
  rintro ⟨ns, h, _⟩
  simp at h

theorem lmMem_cons {m n a : String} {bs : List String} {t : List (String × List String)} :
    lmMem ((a, bs) :: t) m n ↔ (m = a ∧ n ∈ bs) ∨ lmMem t m n := by
  constructor
  · rintro ⟨ns, hmem, hn⟩
    rcases List.mem_cons.mp hmem with h | h
    · have h1 : m = a := congrArg Prod.fst h
      have h2 : ns = bs := congrArg Prod.snd h
      exact Or.inl ⟨h1, h2 ▸ hn⟩
    · exact Or.inr ⟨ns, h, hn⟩
  · rintro (⟨h1, h2⟩ | ⟨ns, hmem, hn⟩)
    · exact ⟨bs, by rw [h1]; exact List.mem_cons_self _ _, h2⟩
    · exact ⟨ns, List.mem_cons_of_mem _ hmem, hn⟩

theorem lmMem_lmAppend :
    ∀ {lm : List (String × List String)} {k v m n : String},
    lmMem (lmAppend lm k v) m n ↔ lmMem lm m n ∨ (m = k ∧ n = v) := by
  intro lm
  induction lm with
  | nil =>
    intro k v m n
    show lmMem [(k, [v])] m n ↔ _
    rw [lmMem_cons]
    simp only [List.mem_singleton]
    constructor
    · rintro (h | h)
      · exact Or.inr h
      · exact absurd h (lmMem_nil m n)
    · rintro (h | h)
      · exact absurd h (lmMem_nil m n)
      · exact Or.inl h
  | cons e rest ih =>
    intro k v m n
    obtain ⟨a, bs⟩ := e
    unfold lmAppend
    by_cases hak : a = k
    · rw [if_pos hak, lmMem_cons, lmMem_cons]
      subst hak
      simp only [List.mem_append, List.mem_singleton]
      tauto
    · rw [if_neg hak, lmMem_cons, lmMem_cons, ih]
      tauto

theorem lmMem_mongo_fold (c : Shell) :
    ∀ (docs : List MongoDoc) (lm : List (String × List String)) (m n : String),
    lmMem (docs.foldl (mongoStep c) lm) m n ↔
      lmMem lm m n ∨ ∃ d ∈ docs,
        ((dontLoadOf c).contains (get_app_name d.module)
          || (dontLoadOf c).contains (get_app_name d.module ++ "."
              ++ (pySplitChar d.regName '.').getLastD d.regName)) = false
        ∧ m = d.module ∧ n = (pySplitChar d.regName '.').getLastD d.regName := by
  intro docs
  induction docs with
  | nil =>
    intro lm m n
    simp
  | cons d rest ih =>
    intro lm m n
    rw [List.foldl_cons, ih]
    simp only [List.mem_cons]
    unfold mongoStep
    by_cases hcond : ((dontLoadOf c).contains (get_app_name d.module)
        || (dontLoadOf c).contains (get_app_name d.module ++ "."
            ++ (pySplitChar d.regName '.').getLastD d.regName)) = true
    · rw [if_pos hcond]
      constructor
      · rintro (h | ⟨d', hd', hp⟩)
        · exact Or.inl h
        · exact Or.inr ⟨d', Or.inr hd', hp⟩
      · rintro (h | ⟨d', hd' | hd', hp⟩)
        · exact Or.inl h
        · subst hd'
          rw [hcond] at hp
          exact absurd hp.1 (by simp)
        · exact Or.inr ⟨d', hd', hp⟩
    · have hf : ((dontLoadOf c).contains (get_app_name d.module)
          || (dontLoadOf c).contains (get_app_name d.module ++ "."
              ++ (pySplitChar d.regName '.').getLastD d.regName)) = false := by
        revert hcond
        cases ((dontLoadOf c).contains (get_app_name d.module)
          || (dontLoadOf c).contains (get_app_name d.module ++ "."
              ++ (pySplitChar d.regName '.').getLastD d.regName)) <;> simp
      rw [if_neg hcond, lmMem_lmAppend]
      constructor
      · rintro ((h | h) | ⟨d', hd', hp⟩)
        · exact Or.inl h
        · exact Or.inr ⟨d, Or.inl rfl, hf, h.1, h.2⟩
        · exact Or.inr ⟨d', Or.inr hd', hp⟩
      · rintro (h | ⟨d', hd' | hd', hp⟩)
        · exact Or.inl (Or.inl h)
        · subst hd'
          exact Or.inl (Or.inr ⟨hp.2.1, hp.2.2⟩)
        · exact Or.inr ⟨d', hd', hp⟩

theorem lmMem_appModel_fold (c : Shell) (app_name : String) :
    ∀ (ms : List ModelInfo) (acc : List (String × List String)) (m n : String),
    lmMem (ms.foldl (appModelStep c app_name) acc) m n ↔
      lmMem acc m n ∨ ∃ mi ∈ ms,
        (dontLoadOf c).contains (app_name ++ "." ++ mi.name) = false
        ∧ mi.module ≠ "" ∧ m = mi.module ∧ n = mi.name := by
  intro ms
  induction ms with
  | nil =>
    intro acc m n
    simp
  | cons mi rest ih =>
    intro acc m n
    rw [List.foldl_cons, ih]
    simp only [List.mem_cons]
    unfold appModelStep
    by_cases hcond : (dontLoadOf c).contains (app_name ++ "." ++ mi.name) = true
    · rw [if_pos hcond]
      constructor
      · rintro (h | ⟨mi', hmi', hp⟩)
        · exact Or.inl h
        · exact Or.inr ⟨mi', Or.inr hmi', hp⟩
      · rintro (h | ⟨mi', hmi' | hmi', hp⟩)
        · exact Or.inl h
        · subst hmi'
          rw [hcond] at hp
          exact absurd hp.1 (by simp)
        · exact Or.inr ⟨mi', hmi', hp⟩
    · have hf : (dontLoadOf c).contains (app_name ++ "." ++ mi.name) = false := by
        revert hcond
        cases (dontLoadOf c).contains (app_name ++ "." ++ mi.name) <;> simp
      rw [if_neg hcond]
      by_cases hmod : mi.module = ""
      · rw [if_pos hmod]
        constructor
        · rintro (h | ⟨mi', hmi', hp⟩)
          · exact Or.inl h
          · exact Or.inr ⟨mi', Or.inr hmi', hp⟩
        · rintro (h | ⟨mi', hmi' | hmi', hp⟩)
          · exact Or.inl h
          · subst hmi'
            exact absurd hmod hp.2.1
          · exact Or.inr ⟨mi', hmi', hp⟩
      · rw [if_neg hmod, lmMem_lmAppend]
        constructor
        · rintro ((h | h) | ⟨mi', hmi', hp⟩)
          · exact Or.inl h
          · exact Or.inr ⟨mi, Or.inl rfl, hf, hmod, h.1, h.2⟩
          · exact Or.inr ⟨mi', Or.inr hmi', hp⟩
        · rintro (h | ⟨mi', hmi' | hmi', hp⟩)
          · exact Or.inl (Or.inl h)
          · subst hmi'
            exact Or.inl (Or.inr ⟨hp.2.2.1, hp.2.2.2⟩)
          · exact Or.inr ⟨mi', hmi', hp⟩

theorem lmMem_app_fold (c : Shell) :
    ∀ (ams : List (String × List ModelInfo)) (lm : List (String × List String)) (m n : String),
    lmMem (ams.foldl (appStep c) lm) m n ↔
      lmMem lm m n ∨ ∃ am ∈ ams, am.2 ≠ []
        ∧ (dontLoadOf c).contains (get_app_name am.1) = false
        ∧ ∃ mi ∈ am.2,
          (dontLoadOf c).contains (get_app_name am.1 ++ "." ++ mi.name) = false
          ∧ mi.module ≠ "" ∧ m = mi.module ∧ n = mi.name := by
  intro ams
  induction ams with
  | nil =>
    intro lm m n
    simp
  | cons am rest ih =>
    intro lm m n
    rw [List.foldl_cons, ih]
    simp only [List.mem_cons]
    unfold appStep
    by_cases hemp : am.2.isEmpty = true
    · rw [if_pos hemp]
      have hnil : am.2 = [] := List.isEmpty_iff.mp hemp
      constructor
      · rintro (h | ⟨am', ham', hp⟩)
        · exact Or.inl h
        · exact Or.inr ⟨am', Or.inr ham', hp⟩
      · rintro (h | ⟨am', ham' | ham', hp⟩)
        · exact Or.inl h
        · subst ham'
          exact absurd hnil hp.1
        · exact Or.inr ⟨am', ham', hp⟩
    · rw [if_neg hemp]
      have hne : am.2 ≠ [] := by
        intro hh
        rw [hh] at hemp
        exact hemp rfl
      by_cases happ : (dontLoadOf c).contains (get_app_name am.1) = true
      · rw [if_pos happ]
        constructor
        · rintro (h | ⟨am', ham', hp⟩)
          · exact Or.inl h
          · exact Or.inr ⟨am', Or.inr ham', hp⟩
        · rintro (h | ⟨am', ham' | ham', hp⟩)
          · exact Or.inl h
          · subst ham'
            rw [happ] at hp
            exact absurd hp.2.1 (by simp)
          · exact Or.inr ⟨am', ham', hp⟩
      · have hfapp : (dontLoadOf c).contains (get_app_name am.1) = false := by
          revert happ
          cases (dontLoadOf c).contains (get_app_name am.1) <;> simp
        rw [if_neg happ, lmMem_appModel_fold]
        constructor
        · rintro ((h | ⟨mi, hmi, hp⟩) | ⟨am', ham', hp⟩)
          · exact Or.inl h
          · exact Or.inr ⟨am, Or.inl rfl, hne, hfapp, mi, hmi, hp⟩
          · exact Or.inr ⟨am', Or.inr ham', hp⟩
        · rintro (h | ⟨am', ham' | ham', hp⟩)
          · exact Or.inl (Or.inl h)
          · subst ham'
            obtain ⟨_, _, mi, hmi, hp'⟩ := hp
            exact Or.inl (Or.inr ⟨mi, hmi, hp'⟩)
          · exact Or.inr ⟨am', ham', hp⟩

theorem contains_false_iff {l : List String} {x : String} :
    l.contains x = false ↔ x ∉ l := by
  constructor
  · intro h hx
    rw [scontains_iff.mpr hx] at h
    exact Bool.noConfusion h
  · intro h
    cases hc : l.contains x with
    | false => rfl
    | true => exact absurd (scontains_iff.mp hc) h

theorem lmMem_build_load_models (c : Shell) (m n : String) :
    lmMem (build_load_models c) m n ↔
      dontLoadAny c = false ∧ (mongoContributes c m n ∨ appContributes c m n) := by
  unfold build_load_models addAppModels addMongoModels
  by_cases hany : dontLoadAny c = true
  · rw [if_pos hany]
    cases hmongo : c.mongo with
    | none =>
      simp only []
      constructor
      · intro h
        exact absurd h (lmMem_nil m n)
      · rintro ⟨hf, _⟩
        rw [hany] at hf
        exact Bool.noConfusion hf
    | some docs =>
      simp only []
      rw [if_pos hany]
      constructor
      · intro h
        exact absurd h (lmMem_nil m n)
      · rintro ⟨hf, _⟩
        rw [hany] at hf
        exact Bool.noConfusion hf
  · have hfany : dontLoadAny c = false := by
      revert hany
      cases dontLoadAny c <;> simp
    rw [if_neg hany]
    cases hmongo : c.mongo with
    | none =>
      simp only []
      rw [lmMem_app_fold]
      constructor
      · rintro (h | ⟨am, ham, hne, hfapp, mi, hmi, hf1, hmod, hm, hn⟩)
        · exact absurd h (lmMem_nil m n)
        · refine ⟨hfany, Or.inr ⟨am, ham, hne, contains_false_iff.mp hfapp,
            mi, hmi, hm.symm, hn.symm, ?_, ?_⟩⟩
          · rw [← hn] at hf1
            exact contains_false_iff.mp hf1
          · rw [hm]; exact hmod
      · rintro ⟨_, hsrc⟩
        rcases hsrc with ⟨docs', hdocs', _⟩ | ⟨am, ham, hne, hnapp, mi, hmi, hm, hn, hnl, hme⟩
        · rw [hmongo] at hdocs'
          exact Option.noConfusion hdocs'
        · refine Or.inr ⟨am, ham, hne, contains_false_iff.mpr hnapp,
            mi, hmi, ?_, ?_, hm.symm, hn.symm⟩
          · rw [hn]
            exact contains_false_iff.mpr hnl
          · rw [hm]; exact hme
    | some docs =>
      simp only []
      rw [if_neg hany, lmMem_app_fold, lmMem_mongo_fold]
      constructor
      · rintro ((h | ⟨d, hd, hf, hm, hn⟩) | ⟨am, ham, hne, hfapp, mi, hmi, hf1, hmod, hm, hn⟩)
        · exact absurd h (lmMem_nil m n)
        · rcases Bool.or_eq_false_iff.mp hf with ⟨hf1, hf2⟩
          refine ⟨hfany, Or.inl ⟨docs, hmongo, d, hd, hm.symm, hn.symm, ?_, ?_⟩⟩
          · rw [hm]
            exact contains_false_iff.mp hf1
          · rw [hm, hn]
            exact contains_false_iff.mp hf2
        · refine ⟨hfany, Or.inr ⟨am, ham, hne, contains_false_iff.mp hfapp,
            mi, hmi, hm.symm, hn.symm, ?_, ?_⟩⟩
          · rw [← hn] at hf1
            exact contains_false_iff.mp hf1
          · rw [hm]; exact hmod
      · rintro ⟨_, hsrc⟩
        rcases hsrc with ⟨docs', hdocs', d, hd, hm, hn, hna, hnl⟩ | ⟨am, ham, hne, hnapp, mi, hmi, hm, hn, hnl, hme⟩
        · have hdd : docs' = docs := by
            rw [hmongo] at hdocs'
            exact (Option.some.inj hdocs').symm
          subst hdd
          refine Or.inl (Or.inr ⟨d, hd, Bool.or_eq_false_iff.mpr ⟨?_, ?_⟩, hm.symm, hn.symm⟩)
          · rw [← hm] at hna
            exact contains_false_iff.mpr hna
          · rw [← hm, ← hn] at hnl
            exact contains_false_iff.mpr hnl
        · refine Or.inr ⟨am, ham, hne, contains_false_iff.mpr hnapp,
            mi, hmi, ?_, ?_, hm.symm, hn.symm⟩
          · rw [hn]
            exact contains_false_iff.mpr hnl
          · rw [hm]; exact hme

theorem mem_valuesJoin_cons {p : String} {e : String × List String} {t : List (String × List String)} :
    p ∈ valuesJoin (e :: t) ↔ p ∈ e.2 ∨ p ∈ valuesJoin t := by
  unfold valuesJoin
  rw [List.foldr_cons]
  exact List.mem_append

theorem mem_valuesJoin_lmAppend :
    ∀ {lm : List (String × List String)} {k v p : String},
    p ∈ valuesJoin (lmAppend lm k v) ↔ p ∈ valuesJoin lm ∨ p = v := by
  intro lm
  induction lm with
  | nil =>
    intro k v p
    show p ∈ valuesJoin [(k, [v])] ↔ _
    rw [mem_valuesJoin_cons]
    simp [valuesJoin]
  | cons e rest ih =>
    intro k v p
    obtain ⟨a, bs⟩ := e
    unfold lmAppend
    by_cases hak : a = k
    · rw [if_pos hak, mem_valuesJoin_cons, mem_valuesJoin_cons]
      simp only [List.mem_append, List.mem_singleton]
      tauto
    · rw [if_neg hak, mem_valuesJoin_cons, mem_valuesJoin_cons, ih]
      tauto

theorem mem_valuesJoin_dictModel_fold (c : Shell) (app_mod app_name : String)
    (app_aliases : List (String × String)) (pfx : Option String) :
    ∀ (names : List String) (mti : List (String × List String)) (p : String),
    p ∈ valuesJoin (names.foldl (dictModelStep c app_mod app_name app_aliases pfx) mti) ↔
      p ∈ valuesJoin mti ∨ ∃ mn ∈ names,
        (dontLoadOf c).contains (app_name ++ "." ++ mn) = false
        ∧ p = app_mod ++ "." ++ mn := by
  intro names
  induction names with
  | nil =>
    intro mti p
    simp
  | cons mn rest ih =>
    intro mti p
    rw [List.foldl_cons, ih]
    simp only [List.mem_cons]
    unfold dictModelStep
    by_cases hcond : (dontLoadOf c).contains (app_name ++ "." ++ mn) = true
    · rw [if_pos hcond]
      constructor
      · rintro (h | ⟨mn', hmn', hp⟩)
        · exact Or.inl h
        · exact Or.inr ⟨mn', Or.inr hmn', hp⟩
      · rintro (h | ⟨mn', hmn' | hmn', hp⟩)
        · exact Or.inl h
        · subst hmn'
          rw [hcond] at hp
          exact absurd hp.1 (by simp)
        · exact Or.inr ⟨mn', hmn', hp⟩
    · have hf : (dontLoadOf c).contains (app_name ++ "." ++ mn) = false := by
        revert hcond
        cases (dontLoadOf c).contains (app_name ++ "." ++ mn) <;> simp
      rw [if_neg hcond, mem_valuesJoin_lmAppend]
      constructor
      · rintro ((h | h) | ⟨mn', hmn', hp⟩)
        · exact Or.inl h
        · exact Or.inr ⟨mn, Or.inl rfl, hf, h⟩
        · exact Or.inr ⟨mn', Or.inr hmn', hp⟩
      · rintro (h | ⟨mn', hmn' | hmn', hp⟩)
        · exact Or.inl (Or.inl h)
        · subst hmn'
          exact Or.inl (Or.inr hp.2)
        · exact Or.inr ⟨mn', hmn', hp⟩

theorem mem_valuesJoin_dictEntry_fold (c : Shell) :
    ∀ (entries : List (String × List String)) (mti : List (String × List String)) (p : String),
    p ∈ valuesJoin (entries.foldl (dictEntryStep c) mti) ↔
      p ∈ valuesJoin mti ∨ ∃ e ∈ entries, ∃ mn ∈ e.2,
        (dontLoadOf c).contains (get_app_name e.1 ++ "." ++ mn) = false
        ∧ p = e.1 ++ "." ++ mn := by
  intro entries
  induction entries with
  | nil =>
    intro mti p
    simp
  | cons e rest ih =>
    intro mti p
    rw [List.foldl_cons, ih]
    show _ ↔ _
    unfold dictEntryStep
    rw [mem_valuesJoin_dictModel_fold]
    simp only [List.mem_cons]
    constructor
    · rintro ((h | ⟨mn, hmn, hp⟩) | ⟨e', he', hp⟩)
      · exact Or.inl h
      · exact Or.inr ⟨e, Or.inl rfl, mn, mem_pySorted.mp hmn, hp⟩
      · exact Or.inr ⟨e', Or.inr he', hp⟩
    · rintro (h | ⟨e', he' | he', mn, hmn, hp⟩)
      · exact Or.inl (Or.inl h)
      · subst he'
        exact Or.inl (Or.inr ⟨mn, mem_pySorted.mpr hmn, hp⟩)
      · exact Or.inr ⟨e', he', mn, hmn, hp⟩

theorem mem_valuesJoin_get_dict (c : Shell) (lm : List (String × List String)) (p : String) :
    p ∈ valuesJoin (get_dict_from_names_to_possible_models c lm) ↔
      ∃ m n, p = m ++ "." ++ n ∧ lmMem lm m n
        ∧ (get_app_name m ++ "." ++ n) ∉ dontLoadOf c := by
  unfold get_dict_from_names_to_possible_models
  rw [mem_valuesJoin_dictEntry_fold]
  constructor
  · rintro (h | ⟨e, he, mn, hmn, hf, hp⟩)
    · simp [valuesJoin] at h
    · exact ⟨e.1, mn, hp, ⟨e.2, by
        simpa using mem_pySorted.mp he, hmn⟩, contains_false_iff.mp hf⟩
  · rintro ⟨m, n, hp, ⟨ns, hmem, hn⟩, hnl⟩
    refine Or.inr ⟨(m, ns), mem_pySorted.mpr hmem, n, hn, contains_false_iff.mpr hnl, hp⟩

/-! ## Denylist semantics -/

theorem build_load_models_eq_nil_of_any {c : Shell} (h : dontLoadAny c = true) :
    build_load_models c = [] := by
  unfold build_load_models addAppModels addMongoModels
  rw [if_pos h]
  cases hm : c.mongo with
  | none => rfl
  | some docs =>
    simp only []
    rw [if_pos h]

/-- C3: the denylist is the concatenation of the `dont_load` option and the
`SHELL_PLUS_DONT_LOAD` setting; a denylist containing `*` empties discovery
(so, provided the collision resolver maps the empty candidate map to an
empty result, the model phase contributes no bindings); and a candidate
path enters the discovery output exactly when some registry source yields
it with its derived app name not denylisted, its `app.Model` label not
denylisted at either check site, and no `*` present — so an `app.Model`
entry excludes exactly the models carrying that label and an app entry
excludes every model of that app. -/
theorem c3_denylist_semantics :
    ∀ (c : Shell),
    dontLoadOf c = c.dont_load ++ c.shell_plus_dont_load
    ∧ ("*" ∈ dontLoadOf c →
        build_load_models c = []
        ∧ get_dict_from_names_to_possible_models c (build_load_models c) = []
        ∧ (c.resolver [] = [] → phase_models c = []))
    ∧ (∀ p, p ∈ valuesJoin (get_dict_from_names_to_possible_models c (build_load_models c)) ↔
        ∃ m n, p = m ++ "." ++ n
          ∧ dontLoadAny c = false
          ∧ (mongoContributes c m n ∨ appContributes c m n)
          ∧ (get_app_name m ++ "." ++ n) ∉ dontLoadOf c) := by
  intro c
  refine ⟨rfl, ?_, ?_⟩
  · intro hstar
    have hany : dontLoadAny c = true := scontains_iff.mpr hstar
    have hnil : build_load_models c = [] := build_load_models_eq_nil_of_any hany
    have hdict : get_dict_from_names_to_possible_models c (build_load_models c) = [] := by
      rw [hnil]
      rfl
    refine ⟨hnil, hdict, ?_⟩
    intro hres
    unfold phase_models modules_to_models
    rw [hdict, hres]
    rfl
  · intro p
    rw [mem_valuesJoin_get_dict]
    constructor
    · rintro ⟨m, n, hp, hmem, hnl⟩
      rw [lmMem_build_load_models] at hmem
      exact ⟨m, n, hp, hmem.1, hmem.2, hnl⟩
    · rintro ⟨m, n, hp, hfany, hsrc, hnl⟩
      exact ⟨m, n, hp, (lmMem_build_load_models c m n).mpr ⟨hfany, hsrc⟩, hnl⟩

/-- Witness for C3: the wildcard shell `Cex3` discovers nothing and its
model phase is empty; `Cex9` (no denylist) discovers `app1.models.Foo`. -/
theorem c3_witness :
    build_load_models Cex3 = []
    ∧ phase_models Cex3 = []
    ∧ "app1.models.Foo" ∈ valuesJoin
        (get_dict_from_names_to_possible_models Cex9 (build_load_models Cex9)) := by
  have h3 := c3_denylist_semantics Cex3
  have h9 := c3_denylist_semantics Cex9
  have hs := h3.2.1 (by decide)
  refine ⟨hs.1, hs.2.2 rfl, ?_⟩
  refine (h9.2.2 "app1.models.Foo").mpr
    ⟨"app1.models", "Foo", rfl, by decide, Or.inr ?_, by decide⟩
  exact ⟨("app1.models", [⟨"Foo", "app1.models"⟩, ⟨"Empty", ""⟩]), by decide, by decide,
    by decide, ⟨"Foo", "app1.models"⟩, by decide, rfl, rfl, by decide, by decide⟩

/-! ## Empty __module__ handling -/

/-- Counterexample to C9 as stated: in `Cex9` the document-registry entry
`pkg.Doc` has an empty `__module__`, yet it is recorded in `load_models`
under the empty key (the mongoengine loop of lines 379-387 has no
empty-module check); only the application-registry model `Empty` with
empty `__module__` is skipped. -/
theorem c9_counterexample :
    build_load_models Cex9 = [("", ["Doc"]), ("app1.models", ["Foo"])] := rfl

/-- C9 (amended): an application-registry model with empty `__module__` is
always skipped — an empty module key in `load_models` can only come from
the document registry. -/
theorem c9_empty_module_only_from_document_registry :
    ∀ (c : Shell) (n : String),
    lmMem (build_load_models c) "" n →
    ∃ docs, c.mongo = some docs ∧ ∃ d ∈ docs, d.module = "" := by
  intro c n h
  rw [lmMem_build_load_models] at h
  rcases h.2 with ⟨docs, hdocs, d, hd, hm, _⟩ | ⟨_, _, _, _, _, _, _, _, _, hme⟩
  · exact ⟨docs, hdocs, d, hd, hm⟩
  · exact absurd rfl hme

/-- Witness for the amended C9 on `Cex9`. -/
theorem c9_witness :
    lmMem (build_load_models Cex9) "" "Doc"
    ∧ ∃ docs, Cex9.mongo = some docs ∧ ∃ d ∈ docs, d.module = "" := by
  have hmem : lmMem (build_load_models Cex9) "" "Doc" := ⟨["Doc"], by decide, by decide⟩
  exact ⟨hmem, c9_empty_module_only_from_document_registry Cex9 "Doc" hmem⟩
